import Mathlib

/-!
Verification of the 2d-strip-packing memory-planning core.

Shallow embedding of:
* `src/tvm_extract/MemBlock.py` — the `MemBlock` class (identity, dependency
  edge bookkeeping, transitive-dependency traversal);
* `src/tvm_extract/AllocationFinder.py` — the internal-allocation discovery of
  `AllocationFinder._process_tir_body` together with `_build_tir_dependencies`;
* `src/tvm_extract/MinizincGenerator.py` — `generate_minizinc_model`.

Python object references are modelled as indices into an explicit heap
(`List MemBlock`); Python dicts are modelled as insertion-ordered association
lists with in-place value replacement, matching CPython dict semantics.
Machine-level details that the source never relies on (e.g. the sha1 of the
debug-only content signature, the random uuid4 token) are abstracted: the
uuid supply is a counter handing out pairwise distinct fresh tokens, which is
exactly the uniqueness the source comments assert for `_id`, and the content
signature keeps its sha1 preimage `str(shape)+str(dtype)+str(origin)`.
-/

/-- One allocation event (`MemBlock.__init__`, MemBlock.py lines 14-40).
`depends_on` / `links_to` hold heap references (indices) to other blocks,
mirroring the Python lists of object references.  `_id` is the identity token
(`unique_id or str(uuid.uuid4())[:8]`). -/
structure MemBlock where
  name : String
  shape : List Int
  dtype : String
  origin : Option String
  depends_on : List Nat
  links_to : List Nat
  first_used : Option Int
  last_used : Option Int
  _id : Nat
  _content_signature : String
  deriving Repr, DecidableEq

/-- Embedding of `MemBlock._compute_content_signature` (lines 42-46): the sha1-truncation is
abstracted to its preimage string; it is used for debugging only and plays no
role anywhere else. -/
def compute_content_signature (shape : List Int) (dtype : String)
    (origin : Option String) : String :=
  toString shape ++ dtype ++ toString origin

/-- Embedding of `MemBlock.__init__` (lines 14-40).  The constructor performs no validation
of any kind: every field is stored as given ( `shape` is only converted to a
tuple, `depends_on or []` / `links_to or []` default to empty lists).  `uid`
is the value of `unique_id or str(uuid.uuid4())[:8]`. -/
def MemBlock.init (name : String) (shape : List Int) (dtype : String)
    (origin : Option String) (depends_on : List Nat)
    (links_to : List Nat) (first_used : Option Int)
    (last_used : Option Int) (uid : Nat) : MemBlock :=
  { name := name
    shape := shape
    dtype := dtype
    origin := origin
    depends_on := depends_on
    links_to := links_to
    first_used := first_used
    last_used := last_used
    _id := uid
    _content_signature := compute_content_signature shape dtype origin }

/-- A fresh-identity creation (`MemBlock(...)` with `unique_id=None`): the
uuid4 supply is modelled as a counter `st` handing out pairwise distinct
tokens; the call returns the new block and the advanced supply. -/
def MemBlock.create (st : Nat) (name : String) (shape : List Int)
    (dtype : String) (origin : Option String) : MemBlock × Nat :=
  (MemBlock.init name shape dtype origin [] [] none none st, st + 1)

/-- Embedding of `MemBlock.__eq__` (lines 60-64): equality is `self._id == other._id`,
never content. -/
def MemBlock.eq (a b : MemBlock) : Bool :=
  a._id == b._id

/-- Model of `np.dtype(tag).itemsize` for the element-type tags occurring in
this domain; an unrecognized tag makes `np.dtype` raise, modelled as `none`. -/
def np_dtype_itemsize (dtype : String) : Option Int :=
  if dtype = "bool" then some 1
  else if dtype = "int8" then some 1
  else if dtype = "uint8" then some 1
  else if dtype = "int16" then some 2
  else if dtype = "uint16" then some 2
  else if dtype = "float16" then some 2
  else if dtype = "int32" then some 4
  else if dtype = "uint32" then some 4
  else if dtype = "float32" then some 4
  else if dtype = "int64" then some 8
  else if dtype = "uint64" then some 8
  else if dtype = "float64" then some 8
  else none

/-- Embedding of `MemBlock.size_bytes` (lines 48-51): `int(np.prod(self.shape)) *
np.dtype(self.dtype).itemsize`; the `np.dtype` lookup is the only point where
an unknown type tag can fail, hence the `Option`. -/
def MemBlock.size_bytes (mb : MemBlock) : Option Int :=
  (np_dtype_itemsize mb.dtype).map (fun w => mb.shape.prod * w)

/-! ## The Python heap: object references are indices into a list of blocks -/

/-- A Python heap of `MemBlock` objects; a reference is an index into it. -/
abbrev Heap := List MemBlock

/-- Dereference a heap reference (total, with a junk default: the source can
never hold a dangling reference, and every theorem keeps its references in
range). -/
def blockAt (h : Heap) (r : Nat) : MemBlock :=
  h.getD r (MemBlock.init "" [] "" none [] [] none none 0)

/-- Identity token of the object behind a reference (Python `x._id`). -/
def uidAt (h : Heap) (r : Nat) : Nat :=
  (blockAt h r)._id

/-- Python list/set membership `x in l` over `MemBlock` objects: elementwise
`__eq__`, which compares `_id` (MemBlock.py lines 60-64). -/
def pyMem (h : Heap) (x : Nat) (l : List Nat) : Bool :=
  l.any (fun r => uidAt h r == uidAt h x)

/-- First statement of `MemBlock.add_dependency` (lines 130-131):
`if other not in self.depends_on: self.depends_on.append(other)`, the
membership test running `__eq__` (`_id` comparison) and the append mutating
the heap in place. -/
def dep_append (h : Heap) (self other : Nat) : Heap :=
  if pyMem h other (blockAt h self).depends_on then h
  else h.set self
    { blockAt h self with depends_on := (blockAt h self).depends_on ++ [other] }

/-- Second statement of `MemBlock.add_dependency` (lines 132-133):
`if self not in other.links_to: other.links_to.append(self)`. -/
def link_append (h : Heap) (self other : Nat) : Heap :=
  if pyMem h self (blockAt h other).links_to then h
  else h.set other
    { blockAt h other with links_to := (blockAt h other).links_to ++ [self] }

/-- Embedding of `MemBlock.add_dependency` (lines 128-133): the two guarded
appends in sequence. -/
def add_dependency (h : Heap) (self other : Nat) : Heap :=
  link_append (dep_append h self other) self other

/-! ## Transitive dependencies (`MemBlock.get_all_dependencies`, lines 142-156)

The Python recursion is unbounded; it is embedded with an explicit fuel
parameter (`none` = the recursion did not complete within the fuel), so that
termination of the source is the theorem that a computable fuel bound always
suffices.  The mutable `visited` set shared across the whole traversal is
threaded explicitly; the returned pair is (result set, final visited set). -/

/-- Loop body of `get_all_dependencies` (lines 153-154): fold the recursive
calls over `self.depends_on`, threading the shared `visited` set and unioning
the results into `deps`. -/
def gatherDeps (rec : Nat → List Nat → Option (List Nat × List Nat)) :
    List Nat → List Nat → List Nat → Option (List Nat × List Nat)
  | [], acc, visited => some (acc, visited)
  | d :: rest, acc, visited =>
    match rec d visited with
    | none => none
    | some (r, v') => gatherDeps rec rest (acc.union r) v'

/-- Fueled embedding of `MemBlock.get_all_dependencies` (lines 142-156):
membership `self in visited` is Python set membership over blocks, i.e. by
`_id`; `visited.add(self)` precedes the recursive calls; `deps` starts as
`set(self.depends_on)`. -/
def get_all_dependencies_fuel (h : Heap) : Nat → Nat → List Nat → Option (List Nat × List Nat) :=
  Nat.rec (fun _ _ => none)
    (fun _ ih self visited =>
      if pyMem h self visited then some ([], visited)
      else gatherDeps ih (blockAt h self).depends_on
        (blockAt h self).depends_on (self :: visited))

/-- Top-level call `block.get_all_dependencies()` (i.e. `visited=None`), run
with the fuel bound `h.length + 1`; returns the dependency set. -/
def get_all_dependencies (h : Heap) (self : Nat) : Option (List Nat) :=
  (get_all_dependencies_fuel h (h.length + 1) self []).map Prod.fst

/-! ## Scheduling model compiler (`MinizincGenerator.generate_minizinc_model`)

The generator receives the flattened list of blocks; here that is the heap
together with the flattened list of references (the Python objects).  The
emitted artifacts are modelled structurally: each generated constraint string
is represented by its constructor (the index arguments are exactly the
integers interpolated into the f-string).  A Python exception escaping the
function is an `Except.error`; writing the model/data files only happens at
the very end of the source function, so an error means no artifact exists. -/

/-- Exceptions that `generate_minizinc_model` can raise. -/
inductive GenErr where
  /-- Python `ValueError`, from `min([])` on an empty sequence (line 40). -/
  | valueError
  /-- Python `IndexError`, from a list index out of range (lines 71, 84). -/
  | indexError
  /-- Python `KeyError`, from a dict lookup miss (lines 60, 63, 79, 84). -/
  | keyError
  /-- Python `NotImplementedError` raised at line 82. -/
  | notImplementedError
  deriving Repr, DecidableEq

/-- Embedding of the dict comprehension at line 50:
`mb_index = \x7bmb._id: i + 1 for i, mb in enumerate(memblocks)\x7d`;
later entries overwrite earlier ones, as in a Python dict comprehension. -/
def mb_index (h : Heap) (memblocks : List Nat) : Nat → Option Nat :=
  memblocks.enum.foldl
    (fun f p => fun u => if u = uidAt h p.2 then some (p.1 + 1) else f u)
    (fun _ => none)

/-- Body of one iteration of the dependency loop, lines 59-68: for block `mb`
(`i = mb_index[mb._id]`) and each `dep` in `mb.depends_on`
(`j = mb_index[dep._id]`), record the pair `(j, i)`; a missing dict key is a
`KeyError`, modelled as `none`. -/
def dep_step (h : Heap) (memblocks : List Nat) (r : Nat) :
    Option (List (Nat × Nat)) :=
  (mb_index h memblocks (uidAt h r)).bind (fun i =>
    (blockAt h r).depends_on.mapM (fun d =>
      (mb_index h memblocks (uidAt h d)).map (fun j => (j, i))))

/-- Embedding of the dependency loop, lines 59-68, over all blocks in order. -/
def dep_pairs (h : Heap) (memblocks : List Nat) : Option (List (Nat × Nat)) :=
  (memblocks.mapM (dep_step h memblocks)).map List.flatten

/-- One emitted precedence-constraint string of the dependency block. -/
inductive PrecConstr where
  /-- The string `constraint posX[j] + sizeX[j] >= posX[i] + op_cost[i];`
  (line 65). -/
  | keep_alive (j i : Nat)
  /-- The string `constraint posX[j] <= posX[i];` (line 67). -/
  | starts_before (j i : Nat)
  deriving Repr, DecidableEq

/-- Embedding of lines 65-67: each recorded pair `(j, i)` contributes its two
constraint strings, in emission order. -/
def prec_constraints (pairs : List (Nat × Nat)) : List PrecConstr :=
  pairs.flatMap (fun p => [PrecConstr.keep_alive p.1 p.2, PrecConstr.starts_before p.1 p.2])

/-- Decision procedure for "the finished graph has a dependency edge from
producer block number `j` to consumer block number `i`" (block numbers are
1-based positions in the flattened list; edge identity follows the `_id`
matching that `mb_index` performs). -/
def dep_edge (h : Heap) (memblocks : List Nat) (j i : Nat) : Bool :=
  1 ≤ i && 1 ≤ j &&
    ((memblocks.get? (i - 1)).any (fun ri =>
      (memblocks.get? (j - 1)).any (fun rj =>
        ((blockAt h ri).depends_on.map (uidAt h)).contains (uidAt h rj))))

/-- Explicit per-position enumeration of the dependency pairs, used to relate
`dep_pairs` to positions (`k` is the number of blocks already consumed). -/
def dep_pairs_from (h : Heap) (memblocks : List Nat) : Nat → List Nat → List (Nat × Nat)
  | _, [] => []
  | k, r :: rest =>
    (blockAt h r).depends_on.filterMap
      (fun d => (mb_index h memblocks (uidAt h d)).map (fun j => (j, k + 1)))
    ++ dep_pairs_from h memblocks (k + 1) rest

/-- Embedding of the leaf-pruning loop, lines 77-86: for every block with
`i = mb_index[mb._id]` whose `depends_on` is empty, raise
`NotImplementedError` when it links to more than one node, otherwise emit
`constraint posX[i] >= posX[j] - 1;` for `j = mb_index[mb.links_to[0]._id]`
(an empty `links_to` makes `mb.links_to[0]` an `IndexError`). -/
def leaf_step (h : Heap) (memblocks : List Nat) (r : Nat) :
    Except GenErr (List (Nat × Nat)) :=
  match mb_index h memblocks (uidAt h r) with
  | none => Except.error GenErr.keyError
  | some i =>
    if (blockAt h r).depends_on = [] then
      if 1 < (blockAt h r).links_to.length then
        Except.error GenErr.notImplementedError
      else
        match (blockAt h r).links_to.head? with
        | none => Except.error GenErr.indexError
        | some l =>
          match mb_index h memblocks (uidAt h l) with
          | none => Except.error GenErr.keyError
          | some j => Except.ok [(i, j)]
    else Except.ok []

/-- The leaf-pruning loop over all blocks in order. -/
def leaf_pairs (h : Heap) (memblocks : List Nat) : Except GenErr (List (Nat × Nat)) :=
  (memblocks.mapM (leaf_step h memblocks)).map List.flatten

/-- The artifacts emitted by `generate_minizinc_model`: the scalar constants
and arrays of the model/data pair, and the constraint blocks in structural
form. -/
structure MznModel where
  n : Nat
  n_dep : Nat
  memsize : Int
  max_time : Int
  sizeY : List Int
  op_cost : List Int
  dep_constraints : List PrecConstr
  index_dep_info : List (Nat × Nat)
  leaf_constraints : List (Nat × Nat)
  deriving Repr, DecidableEq

/-- Embedding of `generate_minizinc_model` (MinizincGenerator.py lines 26-178)
with the default `transfer_fn` (the identity).  Steps in source order:
sizes (lines 39-41, `min([])` raises `ValueError` on an empty block list;
`ceil(x / m)` for positive integers is `(x + m - 1) / m`), operation costs
(line 45), the dependency loop (lines 59-68), the `index_dep_info`
decoration (line 71: `index_dep_info[0]` raises `IndexError` when no
dependency pair was recorded), the leaf-pruning loop (lines 77-86), and only
then the model and data artifacts (`memsize = int(sum_sizey / 2)`,
`max_time = 3 * n + 3 * sum_opcost`, lines 93-96). -/
def generate_minizinc_model (h : Heap) (memblocks : List Nat) :
    Except GenErr MznModel := do
  let raw := memblocks.map (fun r => max 1 (blockAt h r).shape.prod)
  let some m := raw.min? | Except.error GenErr.valueError
  let sizeY := raw.map (fun x => (x + m - 1) / m)
  let sum_sizey := sizeY.sum
  let op_cost := memblocks.map (fun _ => (1 : Int))
  let sum_opcost := op_cost.sum
  let n := memblocks.length
  let pairs ← match dep_pairs h memblocks with
    | none => Except.error GenErr.keyError
    | some ps => Except.ok ps
  if pairs.isEmpty then Except.error GenErr.indexError
  let leaf ← leaf_pairs h memblocks
  return { n := n
           n_dep := pairs.length
           memsize := sum_sizey / 2
           max_time := 3 * (n : Int) + 3 * sum_opcost
           sizeY := sizeY
           op_cost := op_cost
           dep_constraints := prec_constraints pairs
           index_dep_info := pairs
           leaf_constraints := leaf }

/-! ## Allocation graph extractor (`AllocationFinder._process_tir_body`)

The claims concern the low-level pass over a TIR function body: internal
allocation discovery (lines 200-222) plus dependency building
(`_build_tir_dependencies`, lines 230-258), run once per registered call
context (`visit_tir_func`, lines 163-164).  TVM objects enter only through
their identity and the attributes the source reads: a `tir.Buffer` is its
Python object identity (`handle`) plus name/shape/dtype; a `tir.Block`
(reached by `pre_order_visit`, which yields the nested blocks in pre-order)
is its `alloc_buffers`, `reads` and `writes` lists, so a function body is the
pre-order list of its blocks.  `tir_buffer_to_memblock` is a Python dict
keyed by `(buffer, context_idx)` with buffer identity as key equality:
an insertion-ordered association list whose insert replaces in place. -/

/-- A `tvm.tir.Buffer` as the source uses it: object identity plus the
attributes read by `MemBlock.from_tir_buffer`. -/
structure TirBuffer where
  handle : Nat
  name : String
  shape : List Int
  dtype : String
  deriving Repr, DecidableEq

/-- A `tvm.tir.Block` as the source uses it: its allocated buffers and its
read/write footprints (`node.alloc_buffers`, `block.reads`, `block.writes`). -/
structure TirBlockStmt where
  alloc_buffers : List TirBuffer
  reads : List TirBuffer
  writes : List TirBuffer
  deriving Repr, DecidableEq

/-- The extractor state touched by `_process_tir_body`: the object heap, the
`memblocks` registry (`add_memblock` appends `(function_name, block)`), and
the `tir_buffer_to_memblock` dict. -/
structure ExtState where
  heap : Heap
  memblocks : List (String × Nat)
  tir_buffer_to_memblock : List ((Nat × Nat) × Nat)
  deriving Repr, DecidableEq

/-- Lookup in the `tir_buffer_to_memblock` dict (`dict.get`). -/
def dictGet (m : List ((Nat × Nat) × Nat)) (k : Nat × Nat) : Option Nat :=
  (m.find? (fun e => decide (e.1 = k))).map (fun e => e.2)

/-- Assignment `d[k] = v` on a Python dict: replace in place when the key is
present, append otherwise (insertion order is preserved). -/
def dictInsert (m : List ((Nat × Nat) × Nat)) (k : Nat × Nat) (v : Nat) :
    List ((Nat × Nat) × Nat) :=
  if m.any (fun e => decide (e.1 = k)) then
    m.map (fun e => if e.1 = k then (k, v) else e)
  else m ++ [(k, v)]

/-- The origin label `f"tir.alloc.\x7bfunc_name\x7d"` given to internal
allocations. -/
def alloc_origin (fn : String) : String :=
  "tir.alloc." ++ fn

/-- Whether a dict entry is an internal-allocation entry of subroutine `fn`:
its value's block carries the origin `tir.alloc.fn` (the property the search
at lines 206-209 tests on each entry). -/
def alloc_entry (fn : String) (h : Heap) (e : (Nat × Nat) × Nat) : Bool :=
  (h.get? e.2).any (fun mb => mb.origin == some (alloc_origin fn))

/-- Embedding of the search at lines 205-209: iterate the dict items in
insertion order and return the first whose key's buffer is `buf` (object
identity) and whose value's origin is `tir.alloc.fn`. -/
def find_existing_alloc (st : ExtState) (fn : String) (bufHandle : Nat) : Option Nat :=
  (st.tir_buffer_to_memblock.find? (fun e =>
    decide (e.1.1 = bufHandle) && alloc_entry fn st.heap e)).map (fun e => e.2)

/-- Embedding of `MemBlock.from_tir_buffer` (MemBlock.py lines 70-77). -/
def MemBlock.from_tir_buffer (buf : TirBuffer) (origin : Option String)
    (uid : Nat) : MemBlock :=
  MemBlock.init buf.name buf.shape buf.dtype origin [] [] none none uid

/-- Embedding of the per-buffer body of the allocation loop (lines 203-222):
reuse the existing block when the search finds one, otherwise create a fresh
`MemBlock` (its fresh identity token is its heap index), register it via
`add_memblock`, and map `(buf, context_idx)` to it. -/
def process_alloc_buffer (fn : String) (ctx : Nat) (st : ExtState)
    (buf : TirBuffer) : ExtState :=
  match find_existing_alloc st fn buf.handle with
  | some u =>
    { st with tir_buffer_to_memblock :=
        dictInsert st.tir_buffer_to_memblock (buf.handle, ctx) u }
  | none =>
    let u := st.heap.length
    let mb := MemBlock.from_tir_buffer buf (some (alloc_origin fn)) u
    { heap := st.heap ++ [mb]
      memblocks := st.memblocks ++ [(fn, u)]
      tir_buffer_to_memblock :=
        dictInsert st.tir_buffer_to_memblock (buf.handle, ctx) u }

/-- Embedding of `_build_tir_dependencies` (lines 230-258): resolve the
read/write footprints through the context-scoped dict (misses are silently
dropped, lines 235-243), then for every (writer, reader) pair with
`writer._id != reader._id` perform the two guarded appends of lines 255-258
— the very operations of `add_dependency`, which the source inlines here. -/
def build_tir_dependencies (st : ExtState) (blk : TirBlockStmt) (ctx : Nat) :
    ExtState :=
  let write_mbs := blk.writes.filterMap
    (fun b => dictGet st.tir_buffer_to_memblock (b.handle, ctx))
  let read_mbs := blk.reads.filterMap
    (fun b => dictGet st.tir_buffer_to_memblock (b.handle, ctx))
  write_mbs.foldl (fun st w =>
    read_mbs.foldl (fun st r =>
      if uidAt st.heap w != uidAt st.heap r then
        { st with heap := add_dependency st.heap w r }
      else st) st) st

/-- Embedding of `_process_tir_body` for one call context (lines 197-228):
`pre_order_visit` reaches each `tir.Block` of the body in pre-order; each
visit runs the allocation loop and then `_build_tir_dependencies`. -/
def process_tir_body (fn : String) (body : List TirBlockStmt) (ctx : Nat)
    (st : ExtState) : ExtState :=
  body.foldl (fun st blk =>
    build_tir_dependencies
      (blk.alloc_buffers.foldl (process_alloc_buffer fn ctx) st) blk ctx) st

/-- Embedding of the context loop of `visit_tir_func` (lines 163-164): run
`_process_tir_body` once per registered call context, in registration
order. -/
def process_contexts (fn : String) (body : List TirBlockStmt) (k : Nat)
    (st : ExtState) : ExtState :=
  (List.range k).foldl (fun st ctx => process_tir_body fn body ctx st) st

/-! End-to-end scenario C fixture: a subroutine `K` dispatched twice.  The
heap holds the four Relax-level blocks the high-level pass created (inputs
`in1`/`in2`, outputs `o1`/`o2`); `K` has an input parameter buffer (handle
0), an output parameter buffer (handle 1) and one internal buffer `T`
(handle 2); the parameter bindings of `visit_tir_func` are already in the
dict, one per context.  `K`'s body reads the input into `T` and copies `T`
into the output. -/

/-- Input parameter buffer of `K`. -/
def bufPIn : TirBuffer := { handle := 0, name := "p0", shape := [4], dtype := "int8" }

/-- Output parameter buffer of `K`. -/
def bufPOut : TirBuffer := { handle := 1, name := "p1", shape := [4], dtype := "int8" }

/-- Internal buffer `T` allocated inside `K`'s body. -/
def bufT : TirBuffer := { handle := 2, name := "T", shape := [4], dtype := "int8" }

/-- Extractor state after the high-level pass and parameter binding for both
call contexts of `K`. -/
def scenarioC_st0 : ExtState :=
  { heap :=
      [MemBlock.init "in1" [4] "int8" (some "relax.input.main") [] [] none none 0,
       MemBlock.init "o1" [4] "int8" (some "relax.call_tir.K") [] [] none none 1,
       MemBlock.init "in2" [4] "int8" (some "relax.input.main") [] [] none none 2,
       MemBlock.init "o2" [4] "int8" (some "relax.call_tir.K") [] [] none none 3]
    memblocks := [("main", 0), ("main", 1), ("main", 2), ("main", 3)]
    tir_buffer_to_memblock := [((0, 0), 0), ((1, 0), 1), ((0, 1), 2), ((1, 1), 3)] }

/-- The body of `K`: one block reading the input parameter and writing the
internal buffer `T`, one block reading `T` and writing the output
parameter. -/
def scenarioC_body : List TirBlockStmt :=
  [{ alloc_buffers := [bufT], reads := [bufPIn], writes := [bufT] },
   { alloc_buffers := [], reads := [bufT], writes := [bufPOut] }]

/-- Heap evolution as the extractor runs: the heap only grows, and the origin
of every already-existing block never changes (blocks are only appended, or
updated in their `depends_on`/`links_to` lists). -/
def OriginExt (h h' : Heap) : Prop :=
  h.length ≤ h'.length
  ∧ ∀ i, i < h.length →
      (h'.get? i).map MemBlock.origin = (h.get? i).map MemBlock.origin

/-- A state transition that leaves the buffer dict untouched and only extends
the heap origin-stably (what `_build_tir_dependencies` does). -/
def MapStable (st st' : ExtState) : Prop :=
  st'.tir_buffer_to_memblock = st.tir_buffer_to_memblock
  ∧ OriginExt st.heap st'.heap

/-- Invariant of internal-allocation discovery for subroutine `fn`, relative
to the heap size `L0` at the start of the low-level pass: dict values are
valid references; every internal-allocation entry (origin `tir.alloc.fn`)
points at a block created during the pass (reference at least `L0`); and all
internal-allocation entries for one buffer handle agree on their block. -/
def AllocInv (fn : String) (L0 : Nat) (st : ExtState) : Prop :=
  L0 ≤ st.heap.length
  ∧ (∀ e ∈ st.tir_buffer_to_memblock, e.2 < st.heap.length)
  ∧ (∀ e ∈ st.tir_buffer_to_memblock,
      alloc_entry fn st.heap e = true → L0 ≤ e.2)
  ∧ (∀ e ∈ st.tir_buffer_to_memblock, ∀ e' ∈ st.tir_buffer_to_memblock,
      alloc_entry fn st.heap e = true → alloc_entry fn st.heap e' = true →
      e.1.1 = e'.1.1 → e.2 = e'.2)

/-- Call context `ctx` resolves buffer handle `bh` to the internal-allocation
block `u` of subroutine `fn`. -/
def HasShared (fn : String) (st : ExtState) (bh ctx u : Nat) : Prop :=
  dictGet st.tir_buffer_to_memblock (bh, ctx) = some u
  ∧ (st.heap.get? u).any (fun mb => mb.origin == some (alloc_origin fn)) = true

/-- Number of identity tokens of heap blocks that the visited set does not
yet contain: the decreasing measure of the cycle-guarded traversal. -/
def unvisited_ids (h : Heap) (visited : List Nat) : Nat :=
  ((Finset.range h.length).image (uidAt h) \ (visited.map (uidAt h)).toFinset).card

/-! # Theorems -/

/-! ## Heap helper lemmas -/

theorem blockAt_set_eq (h : Heap) (r : Nat) (b : MemBlock) (hr : r < h.length) :
    blockAt (h.set r b) r = b := by
  simp [blockAt, List.getD_eq_getElem?_getD, List.getElem?_set_self hr]

theorem blockAt_set_ne (h : Heap) (r x : Nat) (b : MemBlock) (hx : r ≠ x) :
    blockAt (h.set r b) x = blockAt h x := by
  simp [blockAt, List.getD_eq_getElem?_getD, List.getElem?_set_ne hx]

theorem uidAt_set_preserved (h : Heap) (r : Nat) (b : MemBlock)
    (hid : b._id = (blockAt h r)._id) (x : Nat) :
    uidAt (h.set r b) x = uidAt h x := by
  by_cases hr : r < h.length
  · by_cases hx : r = x
    · subst hx
      rw [uidAt, blockAt_set_eq h r b hr, hid, uidAt]
    · rw [uidAt, blockAt_set_ne h r x b hx, uidAt]
  · rw [List.set_eq_of_length_le (Nat.le_of_not_lt hr)]

theorem pyMem_congr (h h' : Heap) (huid : ∀ x, uidAt h' x = uidAt h x)
    (x : Nat) (l : List Nat) : pyMem h' x l = pyMem h x l := by
  simp [pyMem, huid]

theorem pyMem_append_self (h : Heap) (x : Nat) (l : List Nat) :
    pyMem h x (l ++ [x]) = true := by
  simp [pyMem]

/-! ## C3 and C8: creation, identity, validation -/

/-- C3 (confirmed): two separate creations produce blocks that compare
unequal regardless of their (possibly identical) attribute content; block
equality holds exactly when the creation-time identity tokens match, is
reflexive, and is a function of the tokens only, never of name, shape,
element type or origin. -/
theorem memblock_identity_reference_style :
    (∀ (st : Nat) (n1 : String) (s1 : List Int) (d1 : String)
        (o1 : Option String) (n2 : String) (s2 : List Int) (d2 : String)
        (o2 : Option String),
      MemBlock.eq (MemBlock.create st n1 s1 d1 o1).1
        (MemBlock.create (MemBlock.create st n1 s1 d1 o1).2 n2 s2 d2 o2).1
        = false)
    ∧ (∀ a : MemBlock, MemBlock.eq a a = true)
    ∧ (∀ a b : MemBlock, MemBlock.eq a b = true ↔ a._id = b._id)
    ∧ (∀ (n1 : String) (s1 : List Int) (d1 : String) (o1 : Option String)
        (u1 : Nat) (n2 : String) (s2 : List Int) (d2 : String)
        (o2 : Option String) (u2 : Nat),
      MemBlock.eq (MemBlock.init n1 s1 d1 o1 [] [] none none u1)
        (MemBlock.init n2 s2 d2 o2 [] [] none none u2) = (u1 == u2)) := by
  refine ⟨?_, ?_, ?_, ?_⟩
  · intro st n1 s1 d1 o1 n2 s2 d2 o2
    simp [MemBlock.eq, MemBlock.create, MemBlock.init]
  · intro a
    simp [MemBlock.eq]
  · intro a b
    simp [MemBlock.eq]
  · intro n1 s1 d1 o1 u1 n2 s2 d2 o2 u2
    simp [MemBlock.eq, MemBlock.init]

/-- C8 counterexample: constructing a Memory Block from a shape with a
non-positive dimension and an unrecognized element type tag does not fail —
a block object is returned carrying the malformed inputs unchanged, so the
claimed rejection at construction does not happen. -/
theorem memblock_init_accepts_malformed :
    (MemBlock.init "x" [-1, 5] "notatype" (some "o") [] [] none none 0).shape
      = [-1, 5]
    ∧ (MemBlock.init "x" [-1, 5] "notatype" (some "o") [] [] none none 0).dtype
      = "notatype" := by
  exact ⟨rfl, rfl⟩

/-- C8 (corrected): Memory Block construction performs no input validation at
all — for every name, shape, element type tag and origin (including shapes
with non-positive dimensions and unknown type tags) construction succeeds and
stores the inputs unchanged; an unknown element type tag surfaces only later,
when `size_bytes` is evaluated (the `np.dtype` lookup), where it fails
without producing a byte size. -/
theorem memblock_init_total_uncoerced (name : String) (shape : List Int)
    (dtype : String) (origin : Option String) (uid : Nat) :
    (MemBlock.init name shape dtype origin [] [] none none uid).name = name
    ∧ (MemBlock.init name shape dtype origin [] [] none none uid).shape = shape
    ∧ (MemBlock.init name shape dtype origin [] [] none none uid).dtype = dtype
    ∧ (MemBlock.init name shape dtype origin [] [] none none uid).origin = origin
    ∧ (MemBlock.init name shape dtype origin [] [] none none uid).size_bytes
        = (np_dtype_itemsize dtype).map (fun w => shape.prod * w) := by
  exact ⟨rfl, rfl, rfl, rfl, rfl⟩

/-! ## C6 and C7: add_dependency -/

theorem dep_append_length (h : Heap) (a b : Nat) :
    (dep_append h a b).length = h.length := by
  unfold dep_append
  split
  · rfl
  · exact List.length_set h a _

theorem link_append_length (h : Heap) (a b : Nat) :
    (link_append h a b).length = h.length := by
  unfold link_append
  split
  · rfl
  · exact List.length_set h b _

theorem dep_append_uid (h : Heap) (a b : Nat) (x : Nat) :
    uidAt (dep_append h a b) x = uidAt h x := by
  unfold dep_append
  split
  · rfl
  · exact uidAt_set_preserved h a _ (by rfl) x

theorem link_append_uid (h : Heap) (a b : Nat) (x : Nat) :
    uidAt (link_append h a b) x = uidAt h x := by
  unfold link_append
  split
  · rfl
  · exact uidAt_set_preserved h b _ (by rfl) x

theorem dep_append_post (h : Heap) (a b : Nat) (ha : a < h.length) :
    pyMem (dep_append h a b) b (blockAt (dep_append h a b) a).depends_on
      = true := by
  unfold dep_append
  split
  · assumption
  · rw [blockAt_set_eq h a _ ha]
    rw [pyMem_congr _ _ (uidAt_set_preserved h a _ (by rfl))]
    exact pyMem_append_self h b _

theorem dep_append_blockAt_ne (h : Heap) (a b x : Nat) (hx : a ≠ x) :
    blockAt (dep_append h a b) x = blockAt h x := by
  unfold dep_append
  split
  · rfl
  · exact blockAt_set_ne h a x _ hx

theorem link_append_post (h : Heap) (a b : Nat) (hb : b < h.length) :
    pyMem (link_append h a b) a (blockAt (link_append h a b) b).links_to
      = true := by
  unfold link_append
  split
  · assumption
  · rw [blockAt_set_eq h b _ hb]
    rw [pyMem_congr _ _ (uidAt_set_preserved h b _ (by rfl))]
    exact pyMem_append_self h a _

theorem link_append_blockAt_ne (h : Heap) (a b x : Nat) (hx : b ≠ x) :
    blockAt (link_append h a b) x = blockAt h x := by
  unfold link_append
  split
  · rfl
  · exact blockAt_set_ne h b x _ hx

theorem dep_append_of_mem (h : Heap) (a b : Nat)
    (hmem : pyMem h b (blockAt h a).depends_on = true) :
    dep_append h a b = h := by
  unfold dep_append
  rw [if_pos hmem]

theorem link_append_of_mem (h : Heap) (a b : Nat)
    (hmem : pyMem h a (blockAt h b).links_to = true) :
    link_append h a b = h := by
  unfold link_append
  rw [if_pos hmem]

/-- C6 (confirmed): after `add_dependency(a, b)` on distinct blocks, `b` is in
`a.depends_on` and `a` is in `b.links_to` (membership by `__eq__`, the
Python `in` of the source's own guards), and calling `add_dependency(a, b)`
again changes nothing at all. -/
theorem add_dependency_post_idem (h : Heap) (a b : Nat)
    (ha : a < h.length) (hb : b < h.length) (hab : a ≠ b) :
    pyMem (add_dependency h a b) b
        (blockAt (add_dependency h a b) a).depends_on = true
    ∧ pyMem (add_dependency h a b) a
        (blockAt (add_dependency h a b) b).links_to = true
    ∧ add_dependency (add_dependency h a b) a b = add_dependency h a b := by
  have hba : b ≠ a := fun e => hab e.symm
  have hdep : pyMem (add_dependency h a b) b
      (blockAt (add_dependency h a b) a).depends_on = true := by
    unfold add_dependency
    rw [link_append_blockAt_ne _ a b a hba]
    rw [pyMem_congr _ _ (link_append_uid (dep_append h a b) a b)]
    exact dep_append_post h a b ha
  have hlink : pyMem (add_dependency h a b) a
      (blockAt (add_dependency h a b) b).links_to = true := by
    unfold add_dependency
    have hb' : b < (dep_append h a b).length := by
      rw [dep_append_length]; exact hb
    exact link_append_post (dep_append h a b) a b hb'
  refine ⟨hdep, hlink, ?_⟩
  show link_append (dep_append (add_dependency h a b) a b) a b
      = add_dependency h a b
  rw [dep_append_of_mem _ a b hdep]
  exact link_append_of_mem _ a b hlink

/-- Witness for C6 at a concrete two-block heap. -/
theorem add_dependency_post_idem_witness :
    pyMem (add_dependency [MemBlock.init "x" [1] "int8" none [] [] none none 0,
        MemBlock.init "y" [2] "int8" none [] [] none none 1] 0 1) 1
      (blockAt (add_dependency [MemBlock.init "x" [1] "int8" none [] [] none none 0,
        MemBlock.init "y" [2] "int8" none [] [] none none 1] 0 1) 0).depends_on = true
    ∧ pyMem (add_dependency [MemBlock.init "x" [1] "int8" none [] [] none none 0,
        MemBlock.init "y" [2] "int8" none [] [] none none 1] 0 1) 0
      (blockAt (add_dependency [MemBlock.init "x" [1] "int8" none [] [] none none 0,
        MemBlock.init "y" [2] "int8" none [] [] none none 1] 0 1) 1).links_to = true
    ∧ add_dependency (add_dependency [MemBlock.init "x" [1] "int8" none [] [] none none 0,
        MemBlock.init "y" [2] "int8" none [] [] none none 1] 0 1) 0 1
      = add_dependency [MemBlock.init "x" [1] "int8" none [] [] none none 0,
        MemBlock.init "y" [2] "int8" none [] [] none none 1] 0 1 :=
  add_dependency_post_idem _ 0 1 (by decide) (by decide) (by decide)

/-- C7 counterexample: on a block that has no edges at all,
`add_dependency(a, a)` is not rejected — afterwards `a` is a member of its
own `depends_on` and of its own `links_to`. -/
theorem add_dependency_self_edge_cex :
    pyMem (add_dependency [MemBlock.init "a" [1] "float32" none [] [] none none 7] 0 0) 0
      (blockAt (add_dependency [MemBlock.init "a" [1] "float32" none [] [] none none 7] 0 0) 0).depends_on = true
    ∧ pyMem (add_dependency [MemBlock.init "a" [1] "float32" none [] [] none none 7] 0 0) 0
      (blockAt (add_dependency [MemBlock.init "a" [1] "float32" none [] [] none none 7] 0 0) 0).links_to = true := by
  decide

/-- C7 (corrected): `add_dependency` contains no self-edge guard: for every
block `a` that does not already contain itself (by identity) in its edge
lists, `add_dependency(a, a)` appends the self-edge to both `a.depends_on`
and `a.links_to`.  The only self-edge rejection in the code base is the
`writer._id != reader._id` test in the extractor's
`_build_tir_dependencies`, outside `add_dependency`. -/
theorem add_dependency_self_edge (h : Heap) (a : Nat) (ha : a < h.length)
    (hd : pyMem h a (blockAt h a).depends_on = false)
    (hl : pyMem h a (blockAt h a).links_to = false) :
    pyMem (add_dependency h a a) a
        (blockAt (add_dependency h a a) a).depends_on = true
    ∧ pyMem (add_dependency h a a) a
        (blockAt (add_dependency h a a) a).links_to = true := by
  have h1eq : dep_append h a a = h.set a
      { blockAt h a with depends_on := (blockAt h a).depends_on ++ [a] } := by
    unfold dep_append
    rw [if_neg (by rw [hd]; exact Bool.false_ne_true)]
  have hlen1 : (dep_append h a a).length = h.length := dep_append_length h a a
  have hba1 : blockAt (dep_append h a a) a
      = { blockAt h a with depends_on := (blockAt h a).depends_on ++ [a] } := by
    rw [h1eq]
    exact blockAt_set_eq h a _ ha
  have hl1 : pyMem (dep_append h a a) a
      (blockAt (dep_append h a a) a).links_to = false := by
    rw [hba1]
    show pyMem (dep_append h a a) a (blockAt h a).links_to = false
    rw [pyMem_congr _ _ (dep_append_uid h a a)]
    exact hl
  have h2eq : add_dependency h a a = (dep_append h a a).set a
      { blockAt (dep_append h a a) a with
          links_to := (blockAt (dep_append h a a) a).links_to ++ [a] } := by
    show link_append (dep_append h a a) a a = _
    unfold link_append
    rw [if_neg (by rw [hl1]; exact Bool.false_ne_true)]
  have ha1 : a < (dep_append h a a).length := by rw [hlen1]; exact ha
  have hba2 : blockAt (add_dependency h a a) a
      = { blockAt (dep_append h a a) a with
          links_to := (blockAt (dep_append h a a) a).links_to ++ [a] } := by
    rw [h2eq]
    exact blockAt_set_eq _ a _ ha1
  have huid2 : ∀ x, uidAt (add_dependency h a a) x = uidAt h x := by
    intro x
    show uidAt (link_append (dep_append h a a) a a) x = uidAt h x
    rw [link_append_uid, dep_append_uid]
  constructor
  · rw [hba2]
    show pyMem (add_dependency h a a) a
      (blockAt (dep_append h a a) a).depends_on = true
    rw [hba1]
    show pyMem (add_dependency h a a) a
      ((blockAt h a).depends_on ++ [a]) = true
    rw [pyMem_congr _ _ huid2]
    exact pyMem_append_self h a _
  · rw [hba2]
    show pyMem (add_dependency h a a) a
      ((blockAt (dep_append h a a) a).links_to ++ [a]) = true
    rw [pyMem_congr _ _ huid2, hba1]
    show pyMem h a ((blockAt h a).links_to ++ [a]) = true
    exact pyMem_append_self h a _

/-- Witness for the amended C7 at a concrete two-block heap. -/
theorem add_dependency_self_edge_witness :
    pyMem (add_dependency [MemBlock.init "p" [2] "int8" none [] [] none none 3,
        MemBlock.init "q" [3] "int8" none [] [] none none 4] 1 1) 1
      (blockAt (add_dependency [MemBlock.init "p" [2] "int8" none [] [] none none 3,
        MemBlock.init "q" [3] "int8" none [] [] none none 4] 1 1) 1).depends_on = true
    ∧ pyMem (add_dependency [MemBlock.init "p" [2] "int8" none [] [] none none 3,
        MemBlock.init "q" [3] "int8" none [] [] none none 4] 1 1) 1
      (blockAt (add_dependency [MemBlock.init "p" [2] "int8" none [] [] none none 3,
        MemBlock.init "q" [3] "int8" none [] [] none none 4] 1 1) 1).links_to = true :=
  add_dependency_self_edge _ 1 (by decide) (by decide) (by decide)

/-! ## C9: cycle-guarded traversal terminates -/

theorem blockAt_mem (h : Heap) (r : Nat) (hr : r < h.length) :
    blockAt h r ∈ h := by
  rw [blockAt, List.getD_eq_getElem?_getD, List.getElem?_eq_getElem hr]
  exact List.getElem_mem hr

theorem unvisited_ids_le_of_subset (h : Heap) (v1 v2 : List Nat)
    (hsub : ∀ x ∈ v1, x ∈ v2) :
    unvisited_ids h v2 ≤ unvisited_ids h v1 := by
  apply Finset.card_le_card
  apply Finset.sdiff_subset_sdiff (le_refl _)
  intro u hu
  rw [List.mem_toFinset] at hu ⊢
  obtain ⟨x, hx, hxu⟩ := List.mem_map.mp hu
  exact List.mem_map.mpr ⟨x, hsub x hx, hxu⟩

theorem unvisited_ids_cons_lt (h : Heap) (self : Nat) (visited : List Nat)
    (hself : self < h.length) (hnot : pyMem h self visited = false) :
    unvisited_ids h (self :: visited) < unvisited_ids h visited := by
  have hins : ((self :: visited).map (uidAt h)).toFinset
      = insert (uidAt h self) ((visited.map (uidAt h)).toFinset) := by
    simp
  have hmem : uidAt h self ∈
      (Finset.range h.length).image (uidAt h) \ (visited.map (uidAt h)).toFinset := by
    rw [Finset.mem_sdiff]
    constructor
    · exact Finset.mem_image.mpr ⟨self, Finset.mem_range.mpr hself, rfl⟩
    · rw [List.mem_toFinset]
      intro hcon
      obtain ⟨x, hx, hxu⟩ := List.mem_map.mp hcon
      have : (uidAt h x == uidAt h self) = true := beq_iff_eq.mpr hxu
      have hany : pyMem h self visited = true :=
        List.any_eq_true.mpr ⟨x, hx, this⟩
      rw [hnot] at hany
      exact Bool.false_ne_true hany
  rw [unvisited_ids, unvisited_ids, hins, Finset.sdiff_insert,
    Finset.card_erase_of_mem hmem]
  exact Nat.sub_lt (Finset.card_pos.mpr ⟨_, hmem⟩) Nat.one_pos

theorem gatherDeps_ok (h : Heap) (fuel : Nat)
    (IH : ∀ self visited, self < h.length → unvisited_ids h visited < fuel →
      ∃ r v', get_all_dependencies_fuel h fuel self visited = some (r, v')
        ∧ (∀ x ∈ visited, x ∈ v')) :
    ∀ (l acc visited : List Nat), (∀ d ∈ l, d < h.length) →
      unvisited_ids h visited < fuel →
      ∃ res v',
        gatherDeps (get_all_dependencies_fuel h fuel) l acc visited
          = some (res, v')
        ∧ (∀ x ∈ visited, x ∈ v') := by
  intro l
  induction l with
  | nil =>
    intro acc visited _ _
    exact ⟨acc, visited, rfl, fun x hx => hx⟩
  | cons d rest ihl =>
    intro acc visited hdl hlt
    obtain ⟨r, v1, heq1, hsub1⟩ :=
      IH d visited (hdl d (List.mem_cons_self d rest)) hlt
    have hlt1 : unvisited_ids h v1 < fuel :=
      Nat.lt_of_le_of_lt (unvisited_ids_le_of_subset h visited v1 hsub1) hlt
    obtain ⟨res, v2, heq2, hsub2⟩ :=
      ihl (acc.union r) v1 (fun x hx => hdl x (List.mem_cons_of_mem d hx)) hlt1
    refine ⟨res, v2, ?_, fun x hx => hsub2 x (hsub1 x hx)⟩
    show (match get_all_dependencies_fuel h fuel d visited with
      | none => none
      | some (r, v') =>
        gatherDeps (get_all_dependencies_fuel h fuel) rest (acc.union r) v')
      = some (res, v2)
    rw [heq1]
    exact heq2

theorem gad_fuel_sufficient (h : Heap)
    (hg : ∀ b ∈ h, ∀ d ∈ b.depends_on, d < h.length) :
    ∀ (fuel self : Nat) (visited : List Nat), self < h.length →
      unvisited_ids h visited < fuel →
      ∃ r v', get_all_dependencies_fuel h fuel self visited = some (r, v')
        ∧ (∀ x ∈ visited, x ∈ v') := by
  intro fuel
  induction fuel with
  | zero =>
    intro self visited _ hlt
    exact absurd hlt (Nat.not_lt_zero _)
  | succ fuel IH =>
    intro self visited hself hlt
    have hstep : get_all_dependencies_fuel h (fuel + 1) self visited
        = if pyMem h self visited then some ([], visited)
          else gatherDeps (get_all_dependencies_fuel h fuel)
            (blockAt h self).depends_on (blockAt h self).depends_on
            (self :: visited) := rfl
    by_cases hv : pyMem h self visited = true
    · refine ⟨[], visited, ?_, fun x hx => hx⟩
      rw [hstep, if_pos hv]
    · have hv' : pyMem h self visited = false := Bool.eq_false_iff.mpr hv
      have hdl : ∀ d ∈ (blockAt h self).depends_on, d < h.length :=
        hg (blockAt h self) (blockAt_mem h self hself)
      have hlt1 : unvisited_ids h (self :: visited) < fuel := by
        have hc : unvisited_ids h (self :: visited) < unvisited_ids h visited :=
          unvisited_ids_cons_lt h self visited hself hv'
        have : unvisited_ids h visited ≤ fuel := Nat.lt_succ_iff.mp hlt
        exact Nat.lt_of_lt_of_le hc this
      obtain ⟨res, v', heq, hsub⟩ :=
        gatherDeps_ok h fuel IH (blockAt h self).depends_on
          (blockAt h self).depends_on (self :: visited) hdl hlt1
      refine ⟨res, v', ?_, fun x hx => hsub x (List.mem_cons_of_mem self hx)⟩
      rw [hstep, if_neg hv]
      exact heq

/-- C9 (confirmed): for every block graph — including ones whose dependency
relation is cyclic, i.e. even when the acyclicity invariant is violated —
`get_all_dependencies` completes within the computable fuel bound
`h.length + 1` and returns a dependency set: the visited-set guard prevents
infinite recursion. -/
theorem get_all_dependencies_terminates (h : Heap)
    (hg : ∀ b ∈ h, ∀ d ∈ b.depends_on, d < h.length)
    (self : Nat) (hself : self < h.length) :
    ∃ deps, get_all_dependencies h self = some deps := by
  have hlt : unvisited_ids h [] < h.length + 1 := by
    rw [unvisited_ids]
    have h1 : (([] : List Nat).map (uidAt h)).toFinset = (∅ : Finset Nat) := rfl
    rw [h1, Finset.sdiff_empty]
    exact Nat.lt_succ_of_le
      (le_trans Finset.card_image_le (le_of_eq (Finset.card_range _)))
  obtain ⟨r, v', heq, _⟩ :=
    gad_fuel_sufficient h hg (h.length + 1) self [] hself hlt
  refine ⟨r, ?_⟩
  rw [get_all_dependencies, heq]
  rfl

/-- Witness for C9 on a two-block heap whose dependency relation is a cycle
(block 0 depends on block 1 and block 1 on block 0). -/
theorem get_all_dependencies_terminates_witness :
    ∃ deps, get_all_dependencies
      [MemBlock.init "x" [1] "int8" none [1] [] none none 0,
       MemBlock.init "y" [1] "int8" none [0] [] none none 1] 0 = some deps :=
  get_all_dependencies_terminates _ (by decide) 0 (by decide)

/-! ## C5: scenario A crashes before emitting anything -/

/-- C5 (code bug): on scenario A — exactly two leaf Memory Blocks of byte
sizes 100 and 200 (`int8`) and zero dependency edges — the model compiler
does not produce the claimed model (`n = 2`, no dependency or leaf-pruning
constraints, `memsize` = half the `sizeY` sum): it raises `IndexError` at the
`index_dep_info[0] = "|" + index_dep_info[0]` decoration (line 71), because
no dependency pair was recorded, and no model or data artifact is written
(the writes at lines 171-176 are never reached). -/
theorem scenario_a_index_error :
    generate_minizinc_model
      [MemBlock.init "in0" [100] "int8" (some "relax.input.main") [] [] none none 0,
       MemBlock.init "in1" [200] "int8" (some "relax.input.main") [] [] none none 1]
      [0, 1] = Except.error GenErr.indexError := by
  rfl

/-! ## mb_index characterization -/

theorem mb_index_foldl_not_found (h : Heap) (l : List (Nat × Nat)) :
    ∀ (f0 : Nat → Option Nat) (u : Nat),
      (∀ p ∈ l, uidAt h p.2 ≠ u) →
      l.foldl (fun f p => fun v => if v = uidAt h p.2 then some (p.1 + 1) else f v) f0 u
        = f0 u := by
  induction l with
  | nil => intro f0 u _; rfl
  | cons p rest ih =>
    intro f0 u hne
    rw [List.foldl_cons, ih _ u (fun q hq => hne q (List.mem_cons_of_mem p hq))]
    exact if_neg (fun e => hne p (List.mem_cons_self p rest) e.symm)

theorem mb_index_foldl_found (h : Heap) (l : List (Nat × Nat)) :
    ∀ (f0 : Nat → Option Nat) (u : Nat),
      (∃ p ∈ l, uidAt h p.2 = u) →
      ∃ j, l.foldl
        (fun f p => fun v => if v = uidAt h p.2 then some (p.1 + 1) else f v) f0 u
        = some j := by
  induction l with
  | nil =>
    intro f0 u hex
    obtain ⟨p, hp, _⟩ := hex
    exact absurd hp (List.not_mem_nil p)
  | cons p rest ih =>
    intro f0 u hex
    by_cases hr : ∃ q ∈ rest, uidAt h q.2 = u
    · rw [List.foldl_cons]
      exact ih _ u hr
    · have hne : ∀ q ∈ rest, uidAt h q.2 ≠ u := by
        intro q hq he
        exact hr ⟨q, hq, he⟩
      obtain ⟨q, hq, hqu⟩ := hex
      rcases List.mem_cons.mp hq with hqp | hqr
      · subst hqp
        rw [List.foldl_cons, mb_index_foldl_not_found h rest _ u hne]
        refine ⟨q.1 + 1, ?_⟩
        rw [if_pos hqu.symm]
      · exact absurd hqu (hne q hqr)

theorem mb_index_foldl_char (h : Heap) (l : List (Nat × Nat)) :
    ∀ (f0 : Nat → Option Nat) (u j : Nat),
      l.foldl (fun f p => fun v => if v = uidAt h p.2 then some (p.1 + 1) else f v) f0 u
        = some j →
      (f0 u = some j ∧ ∀ p ∈ l, uidAt h p.2 ≠ u)
      ∨ (∃ p ∈ l, uidAt h p.2 = u ∧ j = p.1 + 1) := by
  induction l with
  | nil =>
    intro f0 u j hj
    exact Or.inl ⟨hj, fun p hp => absurd hp (List.not_mem_nil p)⟩
  | cons p rest ih =>
    intro f0 u j hj
    rw [List.foldl_cons] at hj
    rcases ih _ u j hj with ⟨hstep, hne⟩ | ⟨q, hq, hqu, hqj⟩
    · by_cases hpu : u = uidAt h p.2
      · rw [if_pos hpu] at hstep
        exact Or.inr ⟨p, List.mem_cons_self p rest, hpu.symm,
          (Option.some_inj.mp hstep).symm⟩
      · rw [if_neg hpu] at hstep
        refine Or.inl ⟨hstep, fun q hq => ?_⟩
        rcases List.mem_cons.mp hq with hqp | hqr
        · subst hqp; exact fun e => hpu e.symm
        · exact hne q hqr
    · exact Or.inr ⟨q, List.mem_cons_of_mem p hq, hqu, hqj⟩

theorem mb_index_isSome_of_mem (h : Heap) (memblocks : List Nat) (u : Nat)
    (hu : u ∈ memblocks.map (uidAt h)) :
    ∃ j, mb_index h memblocks u = some j := by
  obtain ⟨r, hr, hru⟩ := List.mem_map.mp hu
  obtain ⟨k, hk⟩ := List.mem_iff_get?.mp hr
  refine mb_index_foldl_found h memblocks.enum _ u ⟨(k, r), ?_, hru⟩
  exact List.mk_mem_enum_iff_getElem?.mpr (by rw [← List.get?_eq_getElem?]; exact hk)

theorem mb_index_some_spec (h : Heap) (memblocks : List Nat) (u j : Nat)
    (hj : mb_index h memblocks u = some j) :
    ∃ k r, memblocks.get? k = some r ∧ uidAt h r = u ∧ j = k + 1 := by
  rcases mb_index_foldl_char h memblocks.enum _ u j hj with ⟨hnone, _⟩ | ⟨p, hp, hpu, hpj⟩
  · exact absurd hnone (by simp)
  · exact ⟨p.1, p.2, (by rw [List.get?_eq_getElem?]; exact List.mem_enum_iff_getElem?.mp hp), hpu, hpj⟩

theorem mb_index_at_pos (h : Heap) (memblocks : List Nat)
    (hnd : (memblocks.map (uidAt h)).Nodup) (k : Nat) (r : Nat)
    (hk : memblocks.get? k = some r) :
    mb_index h memblocks (uidAt h r) = some (k + 1) := by
  have hmem : uidAt h r ∈ memblocks.map (uidAt h) := by
    refine List.mem_map.mpr ⟨r, ?_, rfl⟩
    exact List.mem_iff_get?.mpr ⟨k, hk⟩
  obtain ⟨j, hj⟩ := mb_index_isSome_of_mem h memblocks _ hmem
  obtain ⟨k', r', hk', hu', hj'⟩ := mb_index_some_spec h memblocks _ j hj
  have hklen : k < memblocks.length := by
    rcases List.get?_eq_some.mp hk with ⟨hlt, _⟩
    exact hlt
  have hmap1 : (memblocks.map (uidAt h))[k]? = some (uidAt h r) := by
    rw [List.getElem?_map, ← List.get?_eq_getElem?, hk]
    rfl
  have hmap2 : (memblocks.map (uidAt h))[k']? = some (uidAt h r) := by
    rw [List.getElem?_map, ← List.get?_eq_getElem?, hk']
    simp [hu']
  have hkk : k = k' := by
    apply List.getElem?_inj (by simpa using hklen) hnd
    rw [hmap1, hmap2]
  rw [hj, hj', hkk]

/-! ## mapM evaluation lemmas -/

theorem mapM_option_all_isSome {α β : Type} [Inhabited β] (f : α → Option β) :
    ∀ l : List α, (∀ a ∈ l, (f a).isSome) →
      l.mapM f = some (l.map (fun a => (f a).get!)) := by
  intro l
  induction l with
  | nil => intro _; rfl
  | cons a l ih =>
    intro hf
    obtain ⟨b, hb⟩ := Option.isSome_iff_exists.mp (hf a (List.mem_cons_self a l))
    rw [List.mapM_cons, hb, ih (fun x hx => hf x (List.mem_cons_of_mem a hx))]
    simp [hb]

theorem dep_step_eq (h : Heap) (memblocks : List Nat) (r : Nat) (i : Nat)
    (hi : mb_index h memblocks (uidAt h r) = some i)
    (hdeps : ∀ d ∈ (blockAt h r).depends_on,
      ((mb_index h memblocks (uidAt h d)).map (fun j => (j, i))).isSome) :
    dep_step h memblocks r = some ((blockAt h r).depends_on.map
      (fun d => ((mb_index h memblocks (uidAt h d)).map (fun j => (j, i))).get!)) := by
  rw [dep_step, hi, Option.some_bind]
  exact mapM_option_all_isSome _ _ hdeps

theorem dep_pairs_eq_flatten (h : Heap) (memblocks : List Nat)
    (hsome : ∀ r ∈ memblocks, (dep_step h memblocks r).isSome) :
    dep_pairs h memblocks
      = some ((memblocks.map (fun r => (dep_step h memblocks r).get!)).flatten) := by
  rw [dep_pairs, mapM_option_all_isSome _ _ hsome]
  rfl

theorem dep_step_isSome (h : Heap) (memblocks : List Nat) (r : Nat)
    (hr : r ∈ memblocks)
    (hcl : ∀ d ∈ (blockAt h r).depends_on, uidAt h d ∈ memblocks.map (uidAt h)) :
    (dep_step h memblocks r).isSome := by
  obtain ⟨i, hi⟩ := mb_index_isSome_of_mem h memblocks (uidAt h r)
    (List.mem_map.mpr ⟨r, hr, rfl⟩)
  have hdeps : ∀ d ∈ (blockAt h r).depends_on,
      ((mb_index h memblocks (uidAt h d)).map (fun j => (j, i))).isSome := by
    intro d hd
    obtain ⟨j, hj⟩ := mb_index_isSome_of_mem h memblocks _ (hcl d hd)
    rw [hj]
    rfl
  rw [dep_step_eq h memblocks r i hi hdeps]
  rfl

/-! ## leaf-pruning loop evaluation -/

theorem leaf_step_error_notimpl (h : Heap) (memblocks : List Nat) (r i : Nat)
    (hi : mb_index h memblocks (uidAt h r) = some i)
    (hd : (blockAt h r).depends_on = [])
    (hl : 1 < (blockAt h r).links_to.length) :
    leaf_step h memblocks r = Except.error GenErr.notImplementedError := by
  simp only [leaf_step, hi]
  rw [if_pos hd, if_pos hl]

theorem leaf_step_ok_pair (h : Heap) (memblocks : List Nat) (r i lnk j : Nat)
    (hi : mb_index h memblocks (uidAt h r) = some i)
    (hd : (blockAt h r).depends_on = [])
    (hnl : ¬ 1 < (blockAt h r).links_to.length)
    (hhead : (blockAt h r).links_to.head? = some lnk)
    (hj : mb_index h memblocks (uidAt h lnk) = some j) :
    leaf_step h memblocks r = Except.ok [(i, j)] := by
  simp only [leaf_step, hi, if_pos hd, if_neg hnl, hhead, hj]

theorem leaf_step_ok_nonleaf (h : Heap) (memblocks : List Nat) (r i : Nat)
    (hi : mb_index h memblocks (uidAt h r) = some i)
    (hd : (blockAt h r).depends_on ≠ []) :
    leaf_step h memblocks r = Except.ok [] := by
  simp only [leaf_step, hi]
  rw [if_neg hd]

theorem leaf_loop_error (h : Heap) (memblocks : List Nat) :
    ∀ l : List Nat,
      (∀ r ∈ l, ∃ i, mb_index h memblocks (uidAt h r) = some i) →
      (∀ r ∈ l, (blockAt h r).depends_on = [] →
        ¬ 1 < (blockAt h r).links_to.length →
        ∃ lnk j, (blockAt h r).links_to.head? = some lnk
          ∧ mb_index h memblocks (uidAt h lnk) = some j) →
      (∃ r ∈ l, (blockAt h r).depends_on = []
        ∧ 1 < (blockAt h r).links_to.length) →
      l.mapM (leaf_step h memblocks)
        = Except.error GenErr.notImplementedError := by
  intro l
  induction l with
  | nil =>
    intro _ _ hex
    obtain ⟨r, hr, _⟩ := hex
    exact absurd hr (List.not_mem_nil r)
  | cons r rest ih =>
    intro h1 h2 hex
    rw [List.mapM_cons]
    obtain ⟨i, hi⟩ := h1 r (List.mem_cons_self r rest)
    by_cases hbad : (blockAt h r).depends_on = []
        ∧ 1 < (blockAt h r).links_to.length
    · rw [leaf_step_error_notimpl h memblocks r i hi hbad.1 hbad.2]
      rfl
    · have hrest : ∃ r' ∈ rest, (blockAt h r').depends_on = []
          ∧ 1 < (blockAt h r').links_to.length := by
        obtain ⟨r', hr', hp⟩ := hex
        rcases List.mem_cons.mp hr' with hre | hrr
        · subst hre; exact absurd hp hbad
        · exact ⟨r', hrr, hp⟩
      have herr : rest.mapM (leaf_step h memblocks)
          = Except.error GenErr.notImplementedError :=
        ih (fun x hx => h1 x (List.mem_cons_of_mem r hx))
          (fun x hx => h2 x (List.mem_cons_of_mem r hx)) hrest
      by_cases hd : (blockAt h r).depends_on = []
      · have hnl : ¬ 1 < (blockAt h r).links_to.length :=
          fun hc => hbad ⟨hd, hc⟩
        obtain ⟨lnk, j, hhead, hj⟩ := h2 r (List.mem_cons_self r rest) hd hnl
        rw [leaf_step_ok_pair h memblocks r i lnk j hi hd hnl hhead hj, herr]
        rfl
      · rw [leaf_step_ok_nonleaf h memblocks r i hi hd, herr]
        rfl

theorem except_bind_ok {e a b : Type} (v : a) (k : a → Except e b) :
    (Except.ok v >>= k) = k v := rfl

/-! ## C10: leaf with several consumers -/

/-- C10 counterexample: a graph that does contain a dependency-free block
with two consumers (block `L2`), but whose earlier block `L1` is a
dependency-free block with no consumer at all: the compiler raises
`IndexError` at `mb.links_to[0]` (line 84) — not the claimed
`NotImplementedError`. -/
theorem leaf_multi_consumer_cex :
    generate_minizinc_model
      [MemBlock.init "L1" [4] "int8" none [] [] none none 0,
       MemBlock.init "L2" [4] "int8" none [] [2, 3] none none 1,
       MemBlock.init "A" [4] "int8" none [1] [] none none 2,
       MemBlock.init "B" [4] "int8" none [1] [] none none 3]
      [0, 1, 2, 3] = Except.error GenErr.indexError := by
  rfl

/-- C10 (corrected): on every graph whose referenced blocks are all present,
in which some dependency edge exists, and in which every dependency-free
block has at least one consumer, the presence of a dependency-free block
with more than one consumer makes the compiler raise `NotImplementedError`
in the leaf-pruning loop, so no model or data artifact is produced.  (The
extra conditions are forced by the counterexample: with a consumer-less
dependency-free block, or with no dependency edge at all, the compiler
raises `IndexError` first.) -/
theorem leaf_multi_consumer_not_implemented (h : Heap) (memblocks : List Nat)
    (hdep_cl : ∀ r ∈ memblocks, ∀ d ∈ (blockAt h r).depends_on,
      uidAt h d ∈ memblocks.map (uidAt h))
    (hlink_cl : ∀ r ∈ memblocks, ∀ lnk ∈ (blockAt h r).links_to,
      uidAt h lnk ∈ memblocks.map (uidAt h))
    (hsome_dep : ∃ r ∈ memblocks, (blockAt h r).depends_on ≠ [])
    (hleaf : ∀ r ∈ memblocks, (blockAt h r).depends_on = [] →
      (blockAt h r).links_to ≠ [])
    (hmulti : ∃ r ∈ memblocks, (blockAt h r).depends_on = []
      ∧ 1 < (blockAt h r).links_to.length) :
    generate_minizinc_model h memblocks
      = Except.error GenErr.notImplementedError := by
  have hne : memblocks ≠ [] := by
    obtain ⟨r, hr, _⟩ := hmulti
    intro hcon
    rw [hcon] at hr
    exact List.not_mem_nil r hr
  obtain ⟨m, hm⟩ : ∃ m,
      (memblocks.map (fun r => max 1 (blockAt h r).shape.prod)).min? = some m := by
    cases hmq : (memblocks.map (fun r => max 1 (blockAt h r).shape.prod)).min? with
    | none =>
      exact absurd (List.map_eq_nil_iff.mp (List.min?_eq_none_iff.mp hmq)) hne
    | some m => exact ⟨m, rfl⟩
  have hsome : ∀ r ∈ memblocks, (dep_step h memblocks r).isSome :=
    fun r hr => dep_step_isSome h memblocks r hr (hdep_cl r hr)
  have hdp := dep_pairs_eq_flatten h memblocks hsome
  have hpsne : (memblocks.map (fun r => (dep_step h memblocks r).get!)).flatten
      ≠ [] := by
    obtain ⟨r0, hr0, hd0⟩ := hsome_dep
    intro hcon
    have hall := List.flatten_eq_nil_iff.mp hcon
    have hcompnil := hall _ (List.mem_map.mpr ⟨r0, hr0, rfl⟩)
    obtain ⟨i, hi⟩ := mb_index_isSome_of_mem h memblocks (uidAt h r0)
      (List.mem_map.mpr ⟨r0, hr0, rfl⟩)
    have hdeps : ∀ d ∈ (blockAt h r0).depends_on,
        ((mb_index h memblocks (uidAt h d)).map (fun j => (j, i))).isSome := by
      intro d hd
      obtain ⟨j, hj⟩ := mb_index_isSome_of_mem h memblocks _ (hdep_cl r0 hr0 d hd)
      rw [hj]
      rfl
    rw [dep_step_eq h memblocks r0 i hi hdeps] at hcompnil
    have hmapnil : (blockAt h r0).depends_on.map
        (fun d => ((mb_index h memblocks (uidAt h d)).map
          (fun j => (j, i))).get!) = [] := hcompnil
    exact hd0 (List.map_eq_nil_iff.mp hmapnil)
  have hlp : leaf_pairs h memblocks
      = Except.error GenErr.notImplementedError := by
    rw [leaf_pairs, leaf_loop_error h memblocks memblocks
      (fun r hr => mb_index_isSome_of_mem h memblocks _
        (List.mem_map.mpr ⟨r, hr, rfl⟩))
      ?hlinks hmulti]
    · rfl
    case hlinks =>
      intro r hr hd hnl
      have hlto : (blockAt h r).links_to ≠ [] := hleaf r hr hd
      obtain ⟨lnk, rest', hlnk⟩ : ∃ x xs, (blockAt h r).links_to = x :: xs := by
        cases hc : (blockAt h r).links_to with
        | nil => exact absurd hc hlto
        | cons x xs => exact ⟨x, xs, rfl⟩
      have hhead : (blockAt h r).links_to.head? = some lnk := by
        rw [hlnk]
        rfl
      have hlnkmem : lnk ∈ (blockAt h r).links_to := by
        rw [hlnk]
        exact List.mem_cons_self _ _
      obtain ⟨j, hj⟩ := mb_index_isSome_of_mem h memblocks _
        (hlink_cl r hr lnk hlnkmem)
      exact ⟨lnk, j, hhead, hj⟩
  have hpe : ((memblocks.map (fun r => (dep_step h memblocks r).get!)).flatten).isEmpty
      = false := List.isEmpty_eq_false.mpr hpsne
  simp only [generate_minizinc_model, hm, hdp, hlp]
  rw [except_bind_ok, hpe]
  rfl

/-- Witness for the amended C10: a leaf with two consumers, where every
dependency-free block has a consumer and a dependency edge exists. -/
theorem leaf_multi_consumer_not_implemented_witness :
    generate_minizinc_model
      [MemBlock.init "L" [4] "int8" none [] [1, 2] none none 0,
       MemBlock.init "A" [4] "int8" none [0] [] none none 1,
       MemBlock.init "B" [4] "int8" none [0] [] none none 2]
      [0, 1, 2] = Except.error GenErr.notImplementedError :=
  leaf_multi_consumer_not_implemented _ _ (by decide) (by decide) (by decide)
    (by decide) (by decide)

/-! ## C4: precedence-constraint emission -/

theorem count_pairs_map_snd_ne (h : Heap) (memblocks : List Nat)
    (kk j i : Nat) (hne : i ≠ kk) :
    ∀ deps : List Nat,
      (∀ d ∈ deps, uidAt h d ∈ memblocks.map (uidAt h)) →
      ((deps.map (fun d => ((mb_index h memblocks (uidAt h d)).map
        (fun jv => (jv, kk))).get!)).count (j, i)) = 0 := by
  intro deps
  induction deps with
  | nil => intro _; rfl
  | cons d rest ih =>
    intro hcl
    obtain ⟨jd, hjd⟩ := mb_index_isSome_of_mem h memblocks _
      (hcl d (List.mem_cons_self d rest))
    have helem : ((mb_index h memblocks (uidAt h d)).map
        (fun jv => (jv, kk))).get! = (jd, kk) := by
      rw [hjd]
      rfl
    have hbeq : (((jd, kk) : Nat × Nat) == (j, i)) = false :=
      beq_eq_false_iff_ne.mpr (fun e => hne (congrArg Prod.snd e).symm)
    rw [List.map_cons, List.count_cons,
      ih (fun x hx => hcl x (List.mem_cons_of_mem d hx)), helem, hbeq]
    rfl

theorem count_pairs_map_snd_eq (h : Heap) (memblocks : List Nat)
    (kk j : Nat) :
    ∀ deps : List Nat,
      (∀ d ∈ deps, uidAt h d ∈ memblocks.map (uidAt h)) →
      ((deps.map (fun d => ((mb_index h memblocks (uidAt h d)).map
        (fun jv => (jv, kk))).get!)).count (j, kk))
      = deps.countP (fun d => decide (mb_index h memblocks (uidAt h d) = some j)) := by
  intro deps
  induction deps with
  | nil => intro _; rfl
  | cons d rest ih =>
    intro hcl
    obtain ⟨jd, hjd⟩ := mb_index_isSome_of_mem h memblocks _
      (hcl d (List.mem_cons_self d rest))
    have helem : ((mb_index h memblocks (uidAt h d)).map
        (fun jv => (jv, kk))).get! = (jd, kk) := by
      rw [hjd]
      rfl
    rw [List.map_cons, List.count_cons,
      ih (fun x hx => hcl x (List.mem_cons_of_mem d hx)),
      List.countP_cons, helem, hjd]
    congr 1
    by_cases hjj : jd = j
    · subst hjj
      simp
    · have h1 : (((jd, kk) : Nat × Nat) == (j, kk)) = false :=
        beq_eq_false_iff_ne.mpr (fun e => hjj (congrArg Prod.fst e))
      have h2 : decide ((some jd : Option Nat) = some j) = false := by
        simp [hjj]
      rw [h1, h2]

theorem countP_idx_eq (h : Heap) (memblocks : List Nat)
    (j : Nat) (deps : List Nat) (hdnd : (deps.map (uidAt h)).Nodup) :
    deps.countP (fun d => decide (mb_index h memblocks (uidAt h d) = some j))
    = if ∃ d ∈ deps, mb_index h memblocks (uidAt h d) = some j then 1 else 0 := by
  by_cases hex : ∃ d ∈ deps, mb_index h memblocks (uidAt h d) = some j
  · rw [if_pos hex]
    obtain ⟨d0, hd0, hidx0⟩ := hex
    obtain ⟨k', rj, hk', hu', hj'⟩ := mb_index_some_spec h memblocks _ j hidx0
    have hchar : ∀ d ∈ deps,
        (decide (mb_index h memblocks (uidAt h d) = some j) = true)
        ↔ ((uidAt h d == uidAt h d0) = true) := by
      intro d _
      rw [decide_eq_true_eq, beq_iff_eq]
      constructor
      · intro hc
        obtain ⟨k2, r2, hk2, hu2, hj2⟩ := mb_index_some_spec h memblocks _ j hc
        have hkk : k2 = k' := by omega
        rw [hkk, hk'] at hk2
        have hr2 : r2 = rj := (Option.some_inj.mp hk2).symm
        rw [← hu2, hr2, hu']
      · intro he
        rw [he, hidx0]
    rw [List.countP_congr hchar]
    have hcnt : deps.countP (fun d => uidAt h d == uidAt h d0)
        = (deps.map (uidAt h)).count (uidAt h d0) := by
      rw [List.count, List.countP_map]
      rfl
    rw [hcnt]
    exact List.count_eq_one_of_mem hdnd (List.mem_map.mpr ⟨d0, hd0, rfl⟩)
  · rw [if_neg hex, List.countP_eq_zero]
    intro d hd
    simp only [decide_eq_true_eq]
    exact fun hc => hex ⟨d, hd, hc⟩

theorem dep_edge_char (h : Heap) (memblocks : List Nat) (j i : Nat) :
    dep_edge h memblocks j i = true
    ↔ (1 ≤ i ∧ 1 ≤ j ∧ ∃ ri rj, memblocks.get? (i - 1) = some ri
        ∧ memblocks.get? (j - 1) = some rj
        ∧ uidAt h rj ∈ (blockAt h ri).depends_on.map (uidAt h)) := by
  rw [dep_edge]
  cases hri : memblocks.get? (i - 1) with
  | none =>
    simp [← List.get?_eq_getElem?, hri]
  | some ri =>
    cases hrj : memblocks.get? (j - 1) with
    | none =>
      simp [← List.get?_eq_getElem?, hri, hrj]
    | some rj =>
      simp [← List.get?_eq_getElem?, hri, hrj, Bool.and_eq_true,
        decide_eq_true_eq, List.contains_eq_any_beq]
      tauto

theorem head_pairs_count (h : Heap) (memblocks : List Nat)
    (hnd : (memblocks.map (uidAt h)).Nodup) (k r : Nat)
    (hk : memblocks.get? k = some r)
    (hdnd : ((blockAt h r).depends_on.map (uidAt h)).Nodup)
    (hcl : ∀ d ∈ (blockAt h r).depends_on, uidAt h d ∈ memblocks.map (uidAt h))
    (j i : Nat) :
    (((blockAt h r).depends_on.map (fun d =>
        ((mb_index h memblocks (uidAt h d)).map (fun jv => (jv, k + 1))).get!)).count (j, i))
    = if i = k + 1 ∧ dep_edge h memblocks j i = true then 1 else 0 := by
  by_cases hik : i = k + 1
  · subst hik
    rw [count_pairs_map_snd_eq h memblocks (k + 1) j _ hcl,
      countP_idx_eq h memblocks j _ hdnd]
    by_cases hedge : dep_edge h memblocks j (k + 1) = true
    · rw [if_pos ?hex, if_pos ⟨rfl, hedge⟩]
      case hex =>
        obtain ⟨_, hj1, ri, rj, hri, hrj, hmem⟩ :=
          (dep_edge_char h memblocks j (k + 1)).mp hedge
        have hrieq : ri = r := by
          rw [show k + 1 - 1 = k from rfl, hk] at hri
          exact (Option.some_inj.mp hri).symm
        subst hrieq
        obtain ⟨d0, hd0, hd0u⟩ := List.mem_map.mp hmem
        refine ⟨d0, hd0, ?_⟩
        rw [hd0u]
        have := mb_index_at_pos h memblocks hnd (j - 1) rj hrj
        rw [Nat.sub_add_cancel hj1] at this
        exact this
    · rw [if_neg ?hnex, if_neg (fun hc => hedge hc.2)]
      case hnex =>
        intro hex
        obtain ⟨d0, hd0, hidx0⟩ := hex
        obtain ⟨k', rj, hk', hu', hj'⟩ := mb_index_some_spec h memblocks _ j hidx0
        refine hedge ((dep_edge_char h memblocks j (k + 1)).mpr
          ⟨Nat.le_add_left 1 k, by omega, r, rj, ?_, ?_, ?_⟩)
        · rw [show k + 1 - 1 = k from rfl]
          exact hk
        · rw [show j - 1 = k' from by omega]
          exact hk'
        · rw [hu']
          exact List.mem_map.mpr ⟨d0, hd0, rfl⟩
  · rw [count_pairs_map_snd_ne h memblocks (k + 1) j i hik _ hcl,
      if_neg (fun hc => hik hc.1)]

theorem dep_pairs_count_aux (h : Heap) (memblocks : List Nat)
    (hnd : (memblocks.map (uidAt h)).Nodup)
    (hdeps_nd : ∀ r ∈ memblocks, ((blockAt h r).depends_on.map (uidAt h)).Nodup)
    (hcl : ∀ r ∈ memblocks, ∀ d ∈ (blockAt h r).depends_on,
      uidAt h d ∈ memblocks.map (uidAt h))
    (j i : Nat) :
    ∀ (tl : List Nat) (k : Nat),
      (∀ m, tl.get? m = memblocks.get? (k + m)) →
      (((tl.map (fun r => (dep_step h memblocks r).get!)).flatten).count (j, i))
      = if k < i ∧ i ≤ k + tl.length ∧ dep_edge h memblocks j i = true
        then 1 else 0 := by
  intro tl
  induction tl with
  | nil =>
    intro k _
    rw [if_neg]
    · rfl
    · rintro ⟨h1, h2, _⟩
      simp at h2
      omega
  | cons r tl' ih =>
    intro k hsuf
    have hk : memblocks.get? k = some r := by
      have h0 := hsuf 0
      simpa using h0.symm
    have hrmem : r ∈ memblocks := List.mem_iff_get?.mpr ⟨k, hk⟩
    have hidx := mb_index_at_pos h memblocks hnd k r hk
    have hdepsS : ∀ d ∈ (blockAt h r).depends_on,
        ((mb_index h memblocks (uidAt h d)).map (fun jv => (jv, k + 1))).isSome := by
      intro d hd
      obtain ⟨jv, hjv⟩ := mb_index_isSome_of_mem h memblocks _ (hcl r hrmem d hd)
      rw [hjv]
      rfl
    have hget : (dep_step h memblocks r).get!
        = (blockAt h r).depends_on.map (fun d =>
          ((mb_index h memblocks (uidAt h d)).map (fun jv => (jv, k + 1))).get!) := by
      rw [dep_step_eq h memblocks r (k + 1) hidx hdepsS]
      rfl
    have hsuf' : ∀ m, tl'.get? m = memblocks.get? (k + 1 + m) := by
      intro m
      have hm := hsuf (m + 1)
      simp only [List.get?_cons_succ] at hm
      rw [hm]
      congr 1
      omega
    rw [List.map_cons, List.flatten_cons, List.count_append, hget,
      head_pairs_count h memblocks hnd k r hk (hdeps_nd r hrmem)
        (hcl r hrmem) j i,
      ih (k + 1) hsuf']
    by_cases hedge : dep_edge h memblocks j i = true
    · simp only [hedge, and_true, List.length_cons]
      split_ifs <;> omega
    · simp [hedge]

theorem prec_constraints_count_keep (ps : List (Nat × Nat)) (j i : Nat) :
    (prec_constraints ps).count (PrecConstr.keep_alive j i) = ps.count (j, i) := by
  induction ps with
  | nil => rfl
  | cons p rest ih =>
    obtain ⟨p1, p2⟩ := p
    show (PrecConstr.keep_alive p1 p2 :: PrecConstr.starts_before p1 p2
        :: prec_constraints rest).count (PrecConstr.keep_alive j i)
      = ((p1, p2) :: rest).count (j, i)
    rw [List.count_cons, List.count_cons, List.count_cons, ih]
    by_cases h1 : p1 = j
    · by_cases h2 : p2 = i
      · subst h1
        subst h2
        simp
      · simp [h2]
    · simp [h1]

theorem prec_constraints_count_before (ps : List (Nat × Nat)) (j i : Nat) :
    (prec_constraints ps).count (PrecConstr.starts_before j i) = ps.count (j, i) := by
  induction ps with
  | nil => rfl
  | cons p rest ih =>
    obtain ⟨p1, p2⟩ := p
    show (PrecConstr.keep_alive p1 p2 :: PrecConstr.starts_before p1 p2
        :: prec_constraints rest).count (PrecConstr.starts_before j i)
      = ((p1, p2) :: rest).count (j, i)
    rw [List.count_cons, List.count_cons, List.count_cons, ih]
    by_cases h1 : p1 = j
    · by_cases h2 : p2 = i
      · subst h1
        subst h2
        simp
      · simp [h2]
    · simp [h1]

/-- C4 (confirmed): under the graph well-formedness the extractor guarantees
(pairwise distinct identity tokens, no duplicate entries inside a
`depends_on` list, and every referenced producer present in the block list),
the emitted dependency block contains, for every dependency edge from
producer block `j` to consumer block `i`, exactly one pair of precedence
constraints — one `posX[j] + sizeX[j] >= posX[i] + op_cost[i]` and one
`posX[j] <= posX[i]` — and no such constraint for any ordered pair `(j, i)`
that is not a dependency edge. -/
theorem dep_pairs_exact_edges (h : Heap) (memblocks : List Nat)
    (hnd : (memblocks.map (uidAt h)).Nodup)
    (hdeps_nd : ∀ r ∈ memblocks, ((blockAt h r).depends_on.map (uidAt h)).Nodup)
    (hcl : ∀ r ∈ memblocks, ∀ d ∈ (blockAt h r).depends_on,
      uidAt h d ∈ memblocks.map (uidAt h)) :
    ∃ ps, dep_pairs h memblocks = some ps
      ∧ (∀ j i, ps.count (j, i)
          = if dep_edge h memblocks j i = true then 1 else 0)
      ∧ (∀ j i,
          (prec_constraints ps).count (PrecConstr.keep_alive j i)
            = ps.count (j, i)
          ∧ (prec_constraints ps).count (PrecConstr.starts_before j i)
            = ps.count (j, i)) := by
  have hsome : ∀ r ∈ memblocks, (dep_step h memblocks r).isSome :=
    fun r hr => dep_step_isSome h memblocks r hr (hcl r hr)
  refine ⟨_, dep_pairs_eq_flatten h memblocks hsome, ?_, ?_⟩
  · intro j i
    have haux := dep_pairs_count_aux h memblocks hnd hdeps_nd hcl j i memblocks
      0 (fun m => by rw [Nat.zero_add])
    rw [haux]
    by_cases hedge : dep_edge h memblocks j i = true
    · rw [if_pos hedge, if_pos ?hcond]
      case hcond =>
        obtain ⟨hi1, hj1, ri, rj, hri, hrj, _⟩ :=
          (dep_edge_char h memblocks j i).mp hedge
        have hlt : i - 1 < memblocks.length := (List.get?_eq_some.mp hri).1
        exact ⟨by omega, by omega, hedge⟩
    · rw [if_neg (fun hc => hedge hc.2.2), if_neg hedge]
  · intro j i
    exact ⟨prec_constraints_count_keep _ j i, prec_constraints_count_before _ j i⟩

/-- Witness for C4 on a concrete two-block graph with a single edge from
block 1 (producer `L`) to block 2 (consumer `A`). -/
theorem dep_pairs_exact_edges_witness :
    ∃ ps, dep_pairs
        [MemBlock.init "L" [4] "int8" none [] [1] none none 0,
         MemBlock.init "A" [4] "int8" none [0] [] none none 1] [0, 1]
      = some ps
      ∧ (∀ j i, ps.count (j, i)
          = if dep_edge
              [MemBlock.init "L" [4] "int8" none [] [1] none none 0,
               MemBlock.init "A" [4] "int8" none [0] [] none none 1]
              [0, 1] j i = true then 1 else 0)
      ∧ (∀ j i,
          (prec_constraints ps).count (PrecConstr.keep_alive j i)
            = ps.count (j, i)
          ∧ (prec_constraints ps).count (PrecConstr.starts_before j i)
            = ps.count (j, i)) :=
  dep_pairs_exact_edges _ _ (by decide) (by decide) (by decide)

/-! ## C1 and C2: internal-allocation discovery.  Dict lemmas -/

theorem find?_map_replace (k : Nat × Nat) (v : Nat) :
    ∀ m : List ((Nat × Nat) × Nat),
      ((m.map (fun e => if e.1 = k then (k, v) else e)).find?
          (fun e => decide (e.1 = k)))
      = if m.any (fun e => decide (e.1 = k)) then some (k, v) else none := by
  intro m
  induction m with
  | nil => rfl
  | cons e0 rest ih =>
    by_cases h0 : e0.1 = k
    · rw [List.map_cons, if_pos h0, List.find?_cons_of_pos _ (by simp),
        List.any_cons]
      rw [decide_eq_true h0, Bool.true_or, if_pos rfl]
    · rw [List.map_cons, if_neg h0, List.find?_cons_of_neg _ (by simpa using h0),
        ih, List.any_cons, decide_eq_false h0, Bool.false_or]

theorem find?_map_replace_other (k k' : Nat × Nat) (v : Nat) (hne : k' ≠ k) :
    ∀ m : List ((Nat × Nat) × Nat),
      ((m.map (fun e => if e.1 = k then (k, v) else e)).find?
          (fun e => decide (e.1 = k')))
      = m.find? (fun e => decide (e.1 = k')) := by
  intro m
  induction m with
  | nil => rfl
  | cons e0 rest ih =>
    by_cases h0 : e0.1 = k
    · have h0' : ¬ e0.1 = k' := by
        rw [h0]
        exact fun e => hne e.symm
      rw [List.map_cons, if_pos h0,
        List.find?_cons_of_neg _ (by simpa using fun e : k = k' => hne e.symm),
        List.find?_cons_of_neg _ (by simpa using h0')]
      exact ih
    · rw [List.map_cons, if_neg h0]
      by_cases h0' : e0.1 = k'
      · rw [List.find?_cons_of_pos _ (by simpa using h0'),
          List.find?_cons_of_pos _ (by simpa using h0')]
      · rw [List.find?_cons_of_neg _ (by simpa using h0'),
          List.find?_cons_of_neg _ (by simpa using h0')]
        exact ih

theorem dictGet_insert_self (m : List ((Nat × Nat) × Nat)) (k : Nat × Nat)
    (v : Nat) : dictGet (dictInsert m k v) k = some v := by
  rw [dictInsert]
  by_cases hany : m.any (fun e => decide (e.1 = k)) = true
  · rw [if_pos hany, dictGet, find?_map_replace k v m, if_pos hany]
    rfl
  · rw [if_neg hany, dictGet]
    have hnone : m.find? (fun e => decide (e.1 = k)) = none := by
      rw [List.find?_eq_none]
      intro e he
      simp only [decide_eq_true_eq]
      intro hek
      exact hany (List.any_eq_true.mpr ⟨e, he, decide_eq_true hek⟩)
    rw [List.find?_append, hnone, Option.none_or,
      List.find?_cons_of_pos _ (by simp)]
    rfl

theorem dictGet_insert_other (m : List ((Nat × Nat) × Nat)) (k k' : Nat × Nat)
    (v : Nat) (hne : k' ≠ k) :
    dictGet (dictInsert m k v) k' = dictGet m k' := by
  rw [dictInsert]
  by_cases hany : m.any (fun e => decide (e.1 = k)) = true
  · rw [if_pos hany, dictGet, dictGet, find?_map_replace_other k k' v hne m]
  · rw [if_neg hany, dictGet, dictGet, List.find?_append]
    have hlast : ([(k, v)].find? (fun e => decide (e.1 = k'))) = none := by
      rw [List.find?_eq_none]
      intro e he
      simp only [List.mem_singleton] at he
      subst he
      simpa using fun e : k = k' => hne e.symm
    rw [hlast]
    cases m.find? (fun e => decide (e.1 = k')) with
    | none => rfl
    | some e => rfl

theorem dictInsert_mem (m : List ((Nat × Nat) × Nat)) (k : Nat × Nat)
    (v : Nat) (e : (Nat × Nat) × Nat) (he : e ∈ dictInsert m k v) :
    e ∈ m ∨ e = (k, v) := by
  rw [dictInsert] at he
  by_cases hany : m.any (fun x => decide (x.1 = k)) = true
  · rw [if_pos hany] at he
    obtain ⟨e0, he0, heq⟩ := List.mem_map.mp he
    by_cases h0 : e0.1 = k
    · rw [if_pos h0] at heq
      exact Or.inr heq.symm
    · rw [if_neg h0] at heq
      exact Or.inl (heq ▸ he0)
  · rw [if_neg hany] at he
    rcases List.mem_append.mp he with hm | hs
    · exact Or.inl hm
    · exact Or.inr (List.mem_singleton.mp hs)

theorem dictGet_some_mem (m : List ((Nat × Nat) × Nat)) (kk : Nat × Nat)
    (u : Nat) (hu : dictGet m kk = some u) :
    ∃ e ∈ m, e.1 = kk ∧ e.2 = u := by
  rw [dictGet] at hu
  cases hf : m.find? (fun e => decide (e.1 = kk)) with
  | none => rw [hf] at hu; exact absurd hu (by simp)
  | some e =>
    rw [hf] at hu
    have hmem := List.mem_of_find?_eq_some hf
    have hpred := List.find?_some hf
    simp only [decide_eq_true_eq] at hpred
    exact ⟨e, hmem, hpred, Option.some_inj.mp hu⟩

theorem find_existing_alloc_some (st : ExtState) (fn : String) (bh u : Nat)
    (hu : find_existing_alloc st fn bh = some u) :
    ∃ e ∈ st.tir_buffer_to_memblock,
      e.1.1 = bh ∧ alloc_entry fn st.heap e = true ∧ e.2 = u := by
  rw [find_existing_alloc] at hu
  cases hf : st.tir_buffer_to_memblock.find?
      (fun e => decide (e.1.1 = bh) && alloc_entry fn st.heap e) with
  | none => rw [hf] at hu; exact absurd hu (by simp)
  | some e =>
    rw [hf] at hu
    have hmem := List.mem_of_find?_eq_some hf
    have hpred := List.find?_some hf
    rw [Bool.and_eq_true, decide_eq_true_eq] at hpred
    exact ⟨e, hmem, hpred.1, hpred.2, Option.some_inj.mp hu⟩

theorem find_existing_alloc_none (st : ExtState) (fn : String) (bh : Nat)
    (hn : find_existing_alloc st fn bh = none) :
    ∀ e ∈ st.tir_buffer_to_memblock,
      ¬(e.1.1 = bh ∧ alloc_entry fn st.heap e = true) := by
  rw [find_existing_alloc] at hn
  cases hf : st.tir_buffer_to_memblock.find?
      (fun e => decide (e.1.1 = bh) && alloc_entry fn st.heap e) with
  | some e => rw [hf] at hn; exact absurd hn (by simp)
  | none =>
    intro e he hc
    have := List.find?_eq_none.mp hf e he
    rw [Bool.and_eq_true, decide_eq_true_eq] at this
    exact this ⟨hc.1, hc.2⟩

theorem find_existing_alloc_isSome (st : ExtState) (fn : String) (bh : Nat)
    (hex : ∃ e ∈ st.tir_buffer_to_memblock,
      e.1.1 = bh ∧ alloc_entry fn st.heap e = true) :
    ∃ u, find_existing_alloc st fn bh = some u := by
  cases hf : find_existing_alloc st fn bh with
  | some u => exact ⟨u, rfl⟩
  | none =>
    obtain ⟨e, he, h1, h2⟩ := hex
    exact absurd ⟨h1, h2⟩ (find_existing_alloc_none st fn bh hf e he)

/-! ## Origin-stable heap evolution -/

theorem originExt_refl (h : Heap) : OriginExt h h :=
  ⟨Nat.le_refl _, fun _ _ => rfl⟩

theorem originExt_trans {h1 h2 h3 : Heap} (a : OriginExt h1 h2)
    (b : OriginExt h2 h3) : OriginExt h1 h3 :=
  ⟨Nat.le_trans a.1 b.1,
   fun i hi => (b.2 i (Nat.lt_of_lt_of_le hi a.1)).trans (a.2 i hi)⟩

theorem originExt_append (h : Heap) (mb : MemBlock) :
    OriginExt h (h ++ [mb]) := by
  refine ⟨by simp, fun i hi => ?_⟩
  rw [List.get?_eq_getElem?, List.get?_eq_getElem?, List.getElem?_append_left hi]

theorem originExt_set (h : Heap) (r : Nat) (b : MemBlock)
    (hb : b.origin = (blockAt h r).origin) : OriginExt h (h.set r b) := by
  refine ⟨by simp, fun i hi => ?_⟩
  rw [List.get?_eq_getElem?, List.get?_eq_getElem?]
  by_cases hir : r = i
  · subst hir
    rw [List.getElem?_set_self (by exact hi)]
    have hsome : h[r]? = some (h.get ⟨r, hi⟩) := List.getElem?_eq_getElem hi
    rw [hsome]
    have hba : blockAt h r = h.get ⟨r, hi⟩ := by
      rw [blockAt, List.getD_eq_getElem?_getD, hsome]
      rfl
    simp [hb, hba]
  · rw [List.getElem?_set_ne hir]

theorem originExt_dep_append (h : Heap) (a b : Nat) :
    OriginExt h (dep_append h a b) := by
  rw [dep_append]
  split
  · exact originExt_refl h
  · exact originExt_set h a _ rfl

theorem originExt_link_append (h : Heap) (a b : Nat) :
    OriginExt h (link_append h a b) := by
  rw [link_append]
  split
  · exact originExt_refl h
  · exact originExt_set h b _ rfl

theorem originExt_add_dependency (h : Heap) (a b : Nat) :
    OriginExt h (add_dependency h a b) :=
  originExt_trans (originExt_dep_append h a b)
    (originExt_link_append (dep_append h a b) a b)

theorem alloc_entry_stable (fn : String) (h h' : Heap)
    (hext : OriginExt h h') (e : (Nat × Nat) × Nat) (hu : e.2 < h.length) :
    alloc_entry fn h' e = alloc_entry fn h e := by
  rw [alloc_entry, alloc_entry]
  have horig := hext.2 e.2 hu
  cases hg : h.get? e.2 with
  | none =>
    have := List.get?_eq_none.mp hg
    omega
  | some mb =>
    rw [hg] at horig
    cases hg' : h'.get? e.2 with
    | none =>
      rw [hg'] at horig
      exact absurd horig (by simp)
    | some mb' =>
      rw [hg'] at horig
      have hoo : mb'.origin = mb.origin := by simpa using horig
      simp [hoo]

theorem mapStable_refl (st : ExtState) : MapStable st st :=
  ⟨rfl, originExt_refl _⟩

theorem mapStable_trans {s1 s2 s3 : ExtState} (a : MapStable s1 s2)
    (b : MapStable s2 s3) : MapStable s1 s3 :=
  ⟨b.1.trans a.1, originExt_trans a.2 b.2⟩

theorem mapStable_foldl {α : Type} (g : ExtState → α → ExtState)
    (hg : ∀ st x, MapStable st (g st x)) :
    ∀ (l : List α) (st : ExtState), MapStable st (l.foldl g st) := by
  intro l
  induction l with
  | nil => intro st; exact mapStable_refl st
  | cons x xs ih =>
    intro st
    rw [List.foldl_cons]
    exact mapStable_trans (hg st x) (ih (g st x))

theorem mapStable_build_tir_dependencies (st : ExtState) (blk : TirBlockStmt)
    (ctx : Nat) : MapStable st (build_tir_dependencies st blk ctx) := by
  rw [build_tir_dependencies]
  apply mapStable_foldl
  intro st1 w
  apply mapStable_foldl
  intro st2 r
  split
  · exact ⟨rfl, originExt_add_dependency st2.heap w r⟩
  · exact mapStable_refl st2

theorem alloc_entry_val (fn : String) (h : Heap) (e e' : (Nat × Nat) × Nat)
    (hv : e.2 = e'.2) : alloc_entry fn h e = alloc_entry fn h e' := by
  rw [alloc_entry, alloc_entry, hv]

theorem allocInv_mapStable (fn : String) (L0 : Nat) (st st' : ExtState)
    (hms : MapStable st st') (hinv : AllocInv fn L0 st) :
    AllocInv fn L0 st' := by
  obtain ⟨hmap, hext⟩ := hms
  obtain ⟨h1, h2, h3, h4⟩ := hinv
  refine ⟨Nat.le_trans h1 hext.1, ?_, ?_, ?_⟩
  · intro e he
    rw [hmap] at he
    exact Nat.lt_of_lt_of_le (h2 e he) hext.1
  · intro e he ha
    rw [hmap] at he
    rw [alloc_entry_stable fn st.heap st'.heap hext e (h2 e he)] at ha
    exact h3 e he ha
  · intro e he e' he' ha ha' hh
    rw [hmap] at he he'
    rw [alloc_entry_stable fn st.heap st'.heap hext e (h2 e he)] at ha
    rw [alloc_entry_stable fn st.heap st'.heap hext e' (h2 e' he')] at ha'
    exact h4 e he e' he' ha ha' hh

theorem allocInv_process_alloc_buffer (fn : String) (L0 ctx : Nat)
    (st : ExtState) (buf : TirBuffer) (hinv : AllocInv fn L0 st) :
    AllocInv fn L0 (process_alloc_buffer fn ctx st buf) := by
  obtain ⟨h1, h2, h3, h4⟩ := hinv
  cases hf : find_existing_alloc st fn buf.handle with
  | some u =>
    obtain ⟨e0, he0, he0h, he0a, he0v⟩ :=
      find_existing_alloc_some st fn buf.handle u hf
    simp only [process_alloc_buffer, hf]
    refine ⟨h1, ?_, ?_, ?_⟩
    · intro e he
      rcases dictInsert_mem _ _ _ e he with hm | hnew
      · exact h2 e hm
      · rw [hnew]
        exact he0v ▸ h2 e0 he0
    · intro e he ha
      rcases dictInsert_mem _ _ _ e he with hm | hnew
      · exact h3 e hm ha
      · rw [hnew]
        rw [hnew, alloc_entry_val fn st.heap _ e0 (by rw [← he0v])] at ha
        exact he0v ▸ h3 e0 he0 ha
    · intro e he e' he' ha ha' hh
      rcases dictInsert_mem _ _ _ e he with hm | hnew <;>
        rcases dictInsert_mem _ _ _ e' he' with hm' | hnew'
      · exact h4 e hm e' hm' ha ha' hh
      · rw [hnew'] at hh ⊢
        rw [hnew', alloc_entry_val fn st.heap _ e0 (by rw [← he0v])] at ha'
        exact (h4 e hm e0 he0 ha he0a (by rw [hh, he0h])).trans he0v
      · rw [hnew] at hh ⊢
        rw [hnew, alloc_entry_val fn st.heap _ e0 (by rw [← he0v])] at ha
        exact (he0v.symm.trans
          (h4 e0 he0 e' hm' he0a ha' (by rw [← hh, he0h]))).symm ▸ rfl
      · rw [hnew, hnew']
  | none =>
    have hnon := find_existing_alloc_none st fn buf.handle hf
    simp only [process_alloc_buffer, hf]
    unfold AllocInv
    dsimp only
    have hext : OriginExt st.heap
        (st.heap ++ [MemBlock.from_tir_buffer buf (some (alloc_origin fn))
          st.heap.length]) := originExt_append _ _
    have hlen : (st.heap ++ [MemBlock.from_tir_buffer buf
        (some (alloc_origin fn)) st.heap.length]).length
        = st.heap.length + 1 := by simp
    have hnew_alloc : ∀ e : (Nat × Nat) × Nat, e.2 = st.heap.length →
        alloc_entry fn (st.heap ++ [MemBlock.from_tir_buffer buf
          (some (alloc_origin fn)) st.heap.length]) e = true := by
      intro e hev
      rw [alloc_entry, hev, List.get?_eq_getElem?, List.getElem?_concat_length]
      simp [MemBlock.from_tir_buffer, MemBlock.init]
    have hstable : ∀ e ∈ st.tir_buffer_to_memblock,
        alloc_entry fn (st.heap ++ [MemBlock.from_tir_buffer buf
          (some (alloc_origin fn)) st.heap.length]) e
        = alloc_entry fn st.heap e :=
      fun e he => alloc_entry_stable fn _ _ hext e (h2 e he)
    refine ⟨by omega, ?_, ?_, ?_⟩
    · intro e he
      rcases dictInsert_mem _ _ _ e he with hm | hnew
      · have := h2 e hm
        omega
      · rw [hnew]
        omega
    · intro e he ha
      rcases dictInsert_mem _ _ _ e he with hm | hnew
      · rw [hstable e hm] at ha
        exact h3 e hm ha
      · rw [hnew]
        exact h1
    · intro e he e' he' ha ha' hh
      rcases dictInsert_mem _ _ _ e he with hm | hnew <;>
        rcases dictInsert_mem _ _ _ e' he' with hm' | hnew'
      · rw [hstable e hm] at ha
        rw [hstable e' hm'] at ha'
        exact h4 e hm e' hm' ha ha' hh
      · rw [hstable e hm] at ha
        rw [hnew'] at hh
        exact absurd ⟨hh, ha⟩ (hnon e hm)
      · rw [hstable e' hm'] at ha'
        rw [hnew] at hh
        exact absurd ⟨hh.symm, ha'⟩ (hnon e' hm')
      · rw [hnew, hnew']

theorem hasShared_lt (fn : String) (st : ExtState) (bh ctx u : Nat)
    (hs : HasShared fn st bh ctx u) : u < st.heap.length := by
  obtain ⟨_, halloc⟩ := hs
  cases hg : st.heap.get? u with
  | none =>
    rw [hg] at halloc
    exact absurd halloc (by simp)
  | some mb => exact (List.get?_eq_some.mp hg).1

theorem hasShared_alloc_entry (fn : String) (st : ExtState) (bh ctx u : Nat)
    (hs : HasShared fn st bh ctx u) (e : (Nat × Nat) × Nat) (he : e.2 = u) :
    alloc_entry fn st.heap e = true := by
  rw [alloc_entry, he]
  exact hs.2

theorem hasShared_mapStable (fn : String) (st st' : ExtState) (bh ctx u : Nat)
    (hms : MapStable st st') (hs : HasShared fn st bh ctx u) :
    HasShared fn st' bh ctx u := by
  obtain ⟨hmap, hext⟩ := hms
  have hu : u < st.heap.length := hasShared_lt fn st bh ctx u hs
  refine ⟨by rw [hmap]; exact hs.1, ?_⟩
  have hst := alloc_entry_stable fn st.heap st'.heap hext ((bh, ctx), u) hu
  rw [alloc_entry, alloc_entry] at hst
  rw [hst]
  exact hs.2

theorem hasShared_process_alloc_buffer (fn : String) (L0 ctx' : Nat)
    (st : ExtState) (buf : TirBuffer) (bh ctx u : Nat)
    (hinv : AllocInv fn L0 st) (hs : HasShared fn st bh ctx u) :
    HasShared fn (process_alloc_buffer fn ctx' st buf) bh ctx u := by
  obtain ⟨hget, halloc⟩ := hs
  have hu : u < st.heap.length := hasShared_lt fn st bh ctx u ⟨hget, halloc⟩
  obtain ⟨es, hes, hesk, hesv⟩ := dictGet_some_mem _ _ _ hget
  have hesa : alloc_entry fn st.heap es = true :=
    hasShared_alloc_entry fn st bh ctx u ⟨hget, halloc⟩ es hesv
  by_cases hkey : ((buf.handle, ctx') : Nat × Nat) = (bh, ctx)
  · have hbh : buf.handle = bh := congrArg Prod.fst hkey
    cases hf : find_existing_alloc st fn buf.handle with
    | none =>
      have heshandle : es.1.1 = buf.handle := by
        rw [hesk, hbh]
      exact absurd ⟨heshandle, hesa⟩
        (find_existing_alloc_none st fn buf.handle hf es hes)
    | some u1 =>
      obtain ⟨e1, he1, he1h, he1a, he1v⟩ :=
        find_existing_alloc_some st fn buf.handle u1 hf
      have heq : e1.2 = es.2 := by
        refine hinv.2.2.2 e1 he1 es hes he1a hesa ?_
        rw [he1h, hesk, hbh]
      have hu1 : u1 = u := by rw [← he1v, heq, hesv]
      simp only [process_alloc_buffer, hf]
      refine ⟨?_, halloc⟩
      rw [hkey, dictGet_insert_self, hu1]
  · cases hf : find_existing_alloc st fn buf.handle with
    | some u1 =>
      simp only [process_alloc_buffer, hf]
      refine ⟨?_, halloc⟩
      rw [dictGet_insert_other _ _ _ _ (fun e => hkey e.symm)]
      exact hget
    | none =>
      simp only [process_alloc_buffer, hf]
      constructor
      · rw [dictGet_insert_other _ _ _ _ (fun e => hkey e.symm)]
        exact hget
      · have hext : OriginExt st.heap (st.heap ++ [MemBlock.from_tir_buffer buf
            (some (alloc_origin fn)) st.heap.length]) := originExt_append _ _
        have hst := alloc_entry_stable fn st.heap _ hext ((bh, ctx), u) hu
        rw [alloc_entry, alloc_entry] at hst
        rw [hst]
        exact halloc

theorem hasShared_establish (fn : String) (L0 ctx : Nat) (st : ExtState)
    (buf : TirBuffer) (hinv : AllocInv fn L0 st) :
    ∃ u, HasShared fn (process_alloc_buffer fn ctx st buf) buf.handle ctx u
      ∧ L0 ≤ u
      ∧ ∀ ctx0 u0, HasShared fn st buf.handle ctx0 u0 → u = u0 := by
  cases hf : find_existing_alloc st fn buf.handle with
  | some u1 =>
    obtain ⟨e1, he1, he1h, he1a, he1v⟩ :=
      find_existing_alloc_some st fn buf.handle u1 hf
    refine ⟨u1, ⟨?_, ?_⟩, ?_, ?_⟩
    · simp only [process_alloc_buffer, hf]
      exact dictGet_insert_self _ _ _
    · simp only [process_alloc_buffer, hf]
      have := he1a
      rw [alloc_entry, he1v] at this
      exact this
    · rw [← he1v]
      exact hinv.2.2.1 e1 he1 he1a
    · intro ctx0 u0 hs0
      obtain ⟨es, hes, hesk, hesv⟩ := dictGet_some_mem _ _ _ hs0.1
      have hesa : alloc_entry fn st.heap es = true :=
        hasShared_alloc_entry fn st buf.handle ctx0 u0 hs0 es hesv
      have heq : e1.2 = es.2 := by
        refine hinv.2.2.2 e1 he1 es hes he1a hesa ?_
        rw [he1h, hesk]
      rw [← he1v, heq, hesv]
  | none =>
    refine ⟨st.heap.length, ⟨?_, ?_⟩, hinv.1, ?_⟩
    · simp only [process_alloc_buffer, hf]
      exact dictGet_insert_self _ _ _
    · simp only [process_alloc_buffer, hf]
      rw [List.get?_eq_getElem?, List.getElem?_concat_length]
      simp [MemBlock.from_tir_buffer, MemBlock.init]
    · intro ctx0 u0 hs0
      obtain ⟨es, hes, hesk, hesv⟩ := dictGet_some_mem _ _ _ hs0.1
      have hesa : alloc_entry fn st.heap es = true :=
        hasShared_alloc_entry fn st buf.handle ctx0 u0 hs0 es hesv
      have heshandle : es.1.1 = buf.handle := by rw [hesk]
      exact absurd ⟨heshandle, hesa⟩
        (find_existing_alloc_none st fn buf.handle hf es hes)

theorem allocInv_alloc_fold (fn : String) (L0 ctx : Nat) :
    ∀ (bufs : List TirBuffer) (st : ExtState), AllocInv fn L0 st →
      AllocInv fn L0 (bufs.foldl (process_alloc_buffer fn ctx) st) := by
  intro bufs
  induction bufs with
  | nil => intro st h; exact h
  | cons b bs ih =>
    intro st h
    rw [List.foldl_cons]
    exact ih _ (allocInv_process_alloc_buffer fn L0 ctx st b h)

theorem hasShared_alloc_fold (fn : String) (L0 ctx' bh ctx u : Nat) :
    ∀ (bufs : List TirBuffer) (st : ExtState), AllocInv fn L0 st →
      HasShared fn st bh ctx u →
      HasShared fn (bufs.foldl (process_alloc_buffer fn ctx') st) bh ctx u := by
  intro bufs
  induction bufs with
  | nil => intro st _ hs; exact hs
  | cons b bs ih =>
    intro st hinv hs
    rw [List.foldl_cons]
    exact ih _ (allocInv_process_alloc_buffer fn L0 ctx' st b hinv)
      (hasShared_process_alloc_buffer fn L0 ctx' st b bh ctx u hinv hs)

theorem process_tir_body_cons (fn : String) (blk : TirBlockStmt)
    (rest : List TirBlockStmt) (ctx : Nat) (st : ExtState) :
    process_tir_body fn (blk :: rest) ctx st
    = process_tir_body fn rest ctx
        (build_tir_dependencies
          (blk.alloc_buffers.foldl (process_alloc_buffer fn ctx) st) blk ctx) :=
  rfl

theorem allocInv_process_tir_body (fn : String) (L0 ctx : Nat) :
    ∀ (body : List TirBlockStmt) (st : ExtState), AllocInv fn L0 st →
      AllocInv fn L0 (process_tir_body fn body ctx st) := by
  intro body
  induction body with
  | nil => intro st h; exact h
  | cons blk rest ih =>
    intro st h
    rw [process_tir_body_cons]
    refine ih _ (allocInv_mapStable fn L0 _ _
      (mapStable_build_tir_dependencies _ blk ctx) ?_)
    exact allocInv_alloc_fold fn L0 ctx blk.alloc_buffers st h

theorem hasShared_process_tir_body (fn : String) (L0 ctx' bh ctx u : Nat) :
    ∀ (body : List TirBlockStmt) (st : ExtState), AllocInv fn L0 st →
      HasShared fn st bh ctx u →
      HasShared fn (process_tir_body fn body ctx' st) bh ctx u := by
  intro body
  induction body with
  | nil => intro st _ hs; exact hs
  | cons blk rest ih =>
    intro st hinv hs
    rw [process_tir_body_cons]
    have hinv1 := allocInv_alloc_fold fn L0 ctx' blk.alloc_buffers st hinv
    have hs1 := hasShared_alloc_fold fn L0 ctx' bh ctx u blk.alloc_buffers st hinv hs
    exact ih _ (allocInv_mapStable fn L0 _ _
        (mapStable_build_tir_dependencies _ blk ctx') hinv1)
      (hasShared_mapStable fn _ _ bh ctx u
        (mapStable_build_tir_dependencies _ blk ctx') hs1)

theorem establish_alloc_fold (fn : String) (L0 ctx : Nat) (buf : TirBuffer) :
    ∀ (bufs : List TirBuffer) (st : ExtState), AllocInv fn L0 st →
      buf ∈ bufs →
      ∃ u, HasShared fn (bufs.foldl (process_alloc_buffer fn ctx) st)
          buf.handle ctx u
        ∧ L0 ≤ u
        ∧ ∀ ctx0 u0, HasShared fn st buf.handle ctx0 u0 → u = u0 := by
  intro bufs
  induction bufs with
  | nil =>
    intro st _ hmem
    exact absurd hmem (List.not_mem_nil buf)
  | cons b bs ih =>
    intro st hinv hmem
    rw [List.foldl_cons]
    by_cases hb : buf = b
    · subst hb
      obtain ⟨u, hs, hu, hagree⟩ := hasShared_establish fn L0 ctx st buf hinv
      refine ⟨u, ?_, hu, hagree⟩
      exact hasShared_alloc_fold fn L0 ctx buf.handle ctx u bs _
        (allocInv_process_alloc_buffer fn L0 ctx st buf hinv) hs
    · have hmem' : buf ∈ bs := by
        rcases List.mem_cons.mp hmem with he | hm
        · exact absurd he hb
        · exact hm
      obtain ⟨u, hs, hu, hagree⟩ := ih (process_alloc_buffer fn ctx st b)
        (allocInv_process_alloc_buffer fn L0 ctx st b hinv) hmem'
      refine ⟨u, hs, hu, ?_⟩
      intro ctx0 u0 hs0
      exact hagree ctx0 u0
        (hasShared_process_alloc_buffer fn L0 ctx st b buf.handle ctx0 u0 hinv hs0)

theorem establish_process_tir_body (fn : String) (L0 ctx : Nat)
    (buf : TirBuffer) :
    ∀ (body : List TirBlockStmt) (st : ExtState), AllocInv fn L0 st →
      (∃ blk ∈ body, buf ∈ blk.alloc_buffers) →
      ∃ u, HasShared fn (process_tir_body fn body ctx st) buf.handle ctx u
        ∧ L0 ≤ u
        ∧ ∀ ctx0 u0, HasShared fn st buf.handle ctx0 u0 → u = u0 := by
  intro body
  induction body with
  | nil =>
    intro st _ hex
    obtain ⟨blk, hblk, _⟩ := hex
    exact absurd hblk (List.not_mem_nil blk)
  | cons blk rest ih =>
    intro st hinv hex
    rw [process_tir_body_cons]
    have hinv1 := allocInv_alloc_fold fn L0 ctx blk.alloc_buffers st hinv
    have hinv2 := allocInv_mapStable fn L0 _ _
      (mapStable_build_tir_dependencies _ blk ctx) hinv1
    by_cases hin : buf ∈ blk.alloc_buffers
    · obtain ⟨u, hs, hu, hagree⟩ :=
        establish_alloc_fold fn L0 ctx buf blk.alloc_buffers st hinv hin
      have hs2 := hasShared_mapStable fn _ _ buf.handle ctx u
        (mapStable_build_tir_dependencies _ blk ctx) hs
      refine ⟨u, ?_, hu, hagree⟩
      exact hasShared_process_tir_body fn L0 ctx buf.handle ctx u rest _ hinv2 hs2
    · have hex' : ∃ blk' ∈ rest, buf ∈ blk'.alloc_buffers := by
        obtain ⟨blk', hblk', hbuf'⟩ := hex
        rcases List.mem_cons.mp hblk' with he | hm
        · subst he
          exact absurd hbuf' hin
        · exact ⟨blk', hm, hbuf'⟩
      obtain ⟨u, hs, hu, hagree⟩ := ih _ hinv2 hex'
      refine ⟨u, hs, hu, ?_⟩
      intro ctx0 u0 hs0
      refine hagree ctx0 u0 ?_
      exact hasShared_mapStable fn _ _ buf.handle ctx0 u0
        (mapStable_build_tir_dependencies _ blk ctx)
        (hasShared_alloc_fold fn L0 ctx buf.handle ctx0 u0 blk.alloc_buffers st
          hinv hs0)

theorem process_contexts_succ (fn : String) (body : List TirBlockStmt)
    (k : Nat) (st0 : ExtState) :
    process_contexts fn body (k + 1) st0
    = process_tir_body fn body k (process_contexts fn body k st0) := by
  rw [process_contexts, process_contexts, List.range_succ, List.foldl_append]
  rfl

theorem process_contexts_spec (fn : String) (body : List TirBlockStmt)
    (st0 : ExtState)
    (hval : ∀ e ∈ st0.tir_buffer_to_memblock, e.2 < st0.heap.length)
    (hnoalloc : ∀ e ∈ st0.tir_buffer_to_memblock,
      alloc_entry fn st0.heap e = false)
    (buf : TirBuffer) (hbuf : ∃ blk ∈ body, buf ∈ blk.alloc_buffers) :
    ∀ k, 1 ≤ k →
      AllocInv fn st0.heap.length (process_contexts fn body k st0)
      ∧ ∃ u, st0.heap.length ≤ u
          ∧ ∀ ctx, ctx < k →
              HasShared fn (process_contexts fn body k st0) buf.handle ctx u := by
  have hinv0 : AllocInv fn st0.heap.length st0 := by
    refine ⟨Nat.le_refl _, hval, ?_, ?_⟩
    · intro e he ha
      rw [hnoalloc e he] at ha
      exact absurd ha Bool.false_ne_true
    · intro e he e' he' ha _ _
      rw [hnoalloc e he] at ha
      exact absurd ha Bool.false_ne_true
  intro k
  induction k with
  | zero => intro hk; exact absurd hk (by omega)
  | succ k ih =>
    intro _
    by_cases hk : 1 ≤ k
    · obtain ⟨hinvk, u, hu, hctx⟩ := ih hk
      rw [process_contexts_succ]
      refine ⟨allocInv_process_tir_body fn _ k body _ hinvk, u, hu, ?_⟩
      intro ctx hctxlt
      rcases Nat.lt_succ_iff_lt_or_eq.mp hctxlt with hlt | heq
      · exact hasShared_process_tir_body fn _ k buf.handle ctx u body _ hinvk
          (hctx ctx hlt)
      · subst heq
        obtain ⟨u', hs', _, hagree⟩ :=
          establish_process_tir_body fn _ ctx buf body _ hinvk hbuf
        have huu : u' = u := hagree 0 u (hctx 0 (by omega))
        exact huu ▸ hs'
    · have hk0 : k = 0 := by omega
      subst hk0
      have h1 : process_contexts fn body 1 st0
          = process_tir_body fn body 0 st0 := by
        rw [process_contexts]
        rfl
      rw [h1]
      refine ⟨allocInv_process_tir_body fn _ 0 body st0 hinv0, ?_⟩
      obtain ⟨u, hs, hu, _⟩ :=
        establish_process_tir_body fn _ 0 buf body st0 hinv0 hbuf
      refine ⟨u, hu, fun ctx hlt => ?_⟩
      have hctx0 : ctx = 0 := by omega
      subst hctx0
      exact hs

/-- C2 (confirmed): for every subroutine with at least one registered call
context, every buffer allocated inside the body that is not bound as a
formal parameter (the initial dict holds only non-`tir.alloc` entries) is
represented by exactly one freshly created Memory Block shared across all
contexts: every context's dict entry for that buffer resolves to one and the
same block, that block was created during this pass (its reference is at
least the initial heap size) and carries the origin `tir.alloc.fn`, and
every internal-allocation dict entry for that buffer handle agrees on it —
the first context to discover it creates it, all later contexts reuse it by
buffer-handle identity matched against the recorded origin. -/
theorem internal_alloc_shared (fn : String) (body : List TirBlockStmt)
    (st0 : ExtState) (k : Nat) (hk : 1 ≤ k)
    (hval : ∀ e ∈ st0.tir_buffer_to_memblock, e.2 < st0.heap.length)
    (hnoalloc : ∀ e ∈ st0.tir_buffer_to_memblock,
      alloc_entry fn st0.heap e = false)
    (buf : TirBuffer) (hbuf : ∃ blk ∈ body, buf ∈ blk.alloc_buffers) :
    ∃ u, st0.heap.length ≤ u
      ∧ (∀ ctx, ctx < k →
          dictGet (process_contexts fn body k st0).tir_buffer_to_memblock
            (buf.handle, ctx) = some u)
      ∧ ((process_contexts fn body k st0).heap.get? u).any
          (fun mb => mb.origin == some (alloc_origin fn)) = true
      ∧ (∀ e ∈ (process_contexts fn body k st0).tir_buffer_to_memblock,
          e.1.1 = buf.handle →
          alloc_entry fn (process_contexts fn body k st0).heap e = true →
          e.2 = u) := by
  obtain ⟨hinv, u, hu, hctx⟩ :=
    process_contexts_spec fn body st0 hval hnoalloc buf hbuf k hk
  have hs0 := hctx 0 (by omega)
  refine ⟨u, hu, fun ctx hlt => (hctx ctx hlt).1, hs0.2, ?_⟩
  intro e he hh ha
  obtain ⟨es, hes, hesk, hesv⟩ := dictGet_some_mem _ _ _ hs0.1
  have hesa : alloc_entry fn (process_contexts fn body k st0).heap es = true :=
    hasShared_alloc_entry fn _ buf.handle 0 u hs0 es hesv
  have heq := hinv.2.2.2 e he es hes ha hesa (by rw [hh, hesk])
  rw [heq, hesv]

/-- Witness for C2 on scenario C: subroutine `K`, two call contexts, internal
buffer `T`. -/
theorem internal_alloc_shared_witness :
    ∃ u, scenarioC_st0.heap.length ≤ u
      ∧ (∀ ctx, ctx < 2 →
          dictGet (process_contexts "K" scenarioC_body 2 scenarioC_st0).tir_buffer_to_memblock
            (bufT.handle, ctx) = some u)
      ∧ ((process_contexts "K" scenarioC_body 2 scenarioC_st0).heap.get? u).any
          (fun mb => mb.origin == some (alloc_origin "K")) = true
      ∧ (∀ e ∈ (process_contexts "K" scenarioC_body 2 scenarioC_st0).tir_buffer_to_memblock,
          e.1.1 = bufT.handle →
          alloc_entry "K"
            (process_contexts "K" scenarioC_body 2 scenarioC_st0).heap e = true →
          e.2 = u) :=
  internal_alloc_shared "K" scenarioC_body scenarioC_st0 2 (by decide)
    (by decide) (by decide) bufT (by decide)

/-- C1 counterexample: in scenario C — subroutine `K` dispatched twice with
different argument blocks — the extractor creates exactly ONE Memory Block
with origin `tir.alloc.K` for `K`'s internal buffer, and both call contexts
resolve the buffer to that same block: the claimed two independent per-
context blocks do not exist. -/
theorem call_context_isolation_cex :
    ((process_contexts "K" scenarioC_body 2 scenarioC_st0).heap.filter
        (fun mb => mb.origin == some (alloc_origin "K"))).length = 1
    ∧ dictGet (process_contexts "K" scenarioC_body 2 scenarioC_st0).tir_buffer_to_memblock
        (bufT.handle, 0)
      = dictGet (process_contexts "K" scenarioC_body 2 scenarioC_st0).tir_buffer_to_memblock
        (bufT.handle, 1) := by
  decide

/-- C1 (corrected): in scenario C the extractor produces one shared Memory
Block for `K`'s internal buffer: the single block created carries the origin
`tir.alloc.K`, sits at the first fresh heap position (reference 4), and both
call contexts map the internal buffer to it.  Call-context isolation applies
to the parameter bindings, not to internal allocations, which the code
deliberately shares across contexts (the `FIXED: Only create MemBlock once
per allocated buffer, not per context` path). -/
theorem call_context_shared_internal :
    dictGet (process_contexts "K" scenarioC_body 2 scenarioC_st0).tir_buffer_to_memblock
        (bufT.handle, 0) = some 4
    ∧ dictGet (process_contexts "K" scenarioC_body 2 scenarioC_st0).tir_buffer_to_memblock
        (bufT.handle, 1) = some 4
    ∧ ((process_contexts "K" scenarioC_body 2 scenarioC_st0).heap.get? 4).map
        MemBlock.origin = some (some (alloc_origin "K"))
    ∧ ((process_contexts "K" scenarioC_body 2 scenarioC_st0).heap.filter
        (fun mb => mb.origin == some (alloc_origin "K"))).length = 1 := by
  decide
